import Mathlib

/-!
Verification of speedy-vision's keypoint codec and matrix kernel VM.

Shallow embedding of:
* `src/core/pipeline/nodes/keypoints/sink.js` — `SpeedyPipelineNodeKeypointSink._decode`
* `src/gpu/shaders/encoders/encode-keypoints.glsl` — `findQthKeypoint`, `main`
* `src/core/math/matrix-math.js` — the `MatrixMath` operations

Conventions of the embedding:
* JS numbers and GLSL floats are modelled as rationals (`ℚ`); the claims under
  study are about strides, byte layouts and algebraic identities, for which the
  spec itself allows exact arithmetic.
* Byte buffers (`Uint8Array`) are `List ℕ`.  A JS out-of-bounds read used in a
  bit operation coerces `undefined` to `0`, which `List.getD _ _ 0` reproduces;
  the comparisons `pixels[i+6] == 0` and `pixels[i+4] < 255` are `false` on
  `undefined`, which the embedding reproduces with explicit bounds tests.
* The decoded `rotation` field is kept in units of `π/255`: the JS value is
  `rotation * π / 255`.  Equality of rotations is equality of these integers.
* `FIX_RESOLUTION`, `LOG2_PYRAMID_MAX_SCALE` and `PYRAMID_MAX_LEVELS` live in
  `utils/globals.js`, which is not part of the sources at hand; they are kept
  as parameters (`FIX`, `m`, `h`).  `MIN_KEYPOINT_SIZE = 8` per the spec (§6).
-/

/-- JS `TypedArray.subarray(a, b)` (clamping) on a byte list. -/
def subarray (l : List ℕ) (a b : ℕ) : List ℕ :=
  (l.take b).drop a

/-- `Math.ceil((MIN_KEYPOINT_SIZE + descriptorSize + extraSize) / 4)` with
`MIN_KEYPOINT_SIZE = 8` (sink.js line 98). -/
def pixelsPerKeypoint (descriptorSize extraSize : ℕ) : ℕ :=
  (8 + descriptorSize + extraSize + 3) / 4

/-- Host-side keypoint value produced by the sink's decoder (`SpeedyKeypoint`).
`rotation` is stored in units of `π/255`: the JS constructor receives
`rotation * π / 255`. -/
structure SpeedyKeypoint where
  x : ℚ
  y : ℚ
  lod : ℚ
  rotation : ℤ
  score : ℕ
  descriptor : List ℕ
  extra : List ℕ
deriving DecidableEq, Repr

/-- Raw fixed-point x of the cell at byte offset `i`:
`(pixels[i+1] << 8) | pixels[i]` (sink.js line 117). -/
def cellX (pixels : List ℕ) (i : ℕ) : ℕ :=
  pixels.getD (i+1) 0 * 256 + pixels.getD i 0

/-- Raw fixed-point y of the cell at byte offset `i`:
`(pixels[i+3] << 8) | pixels[i+2]` (sink.js line 118). -/
def cellY (pixels : List ℕ) (i : ℕ) : ℕ :=
  pixels.getD (i+3) 0 * 256 + pixels.getD (i+2) 0

/-- Level of detail decoded from byte `i+4` (sink.js line 133); the bounds test
mirrors JS, where `undefined < 255` is false. -/
def cellLod (m h : ℚ) (pixels : List ℕ) (i : ℕ) : ℚ :=
  if i + 4 < pixels.length ∧ pixels.getD (i+4) 0 < 255 then
    -m + ((m + h) * (pixels.getD (i+4) 0 : ℚ)) / 255
  else 0

/-- Rotation decoded from byte `i+5` (sink.js line 136), in units of `π/255`:
the JS value is `(2 * pixels[i+5] - 255) * π / 255`. -/
def cellRotation (pixels : List ℕ) (i : ℕ) : ℤ :=
  2 * (pixels.getD (i+5) 0 : ℤ) - 255

/-- Score decoded from bytes `i+6`, `i+7` (sink.js line 139). -/
def cellScore (pixels : List ℕ) (i : ℕ) : ℕ :=
  pixels.getD (i+7) 0 * 256 + pixels.getD (i+6) 0

/-- `pixels.subarray(8 + i, 8 + i + extraSize)` (sink.js line 142). -/
def cellExtra (extraSize : ℕ) (pixels : List ℕ) (i : ℕ) : List ℕ :=
  subarray pixels (8 + i) (8 + i + extraSize)

/-- `pixels.subarray(8 + i + extraSize, 8 + i + extraSize + descriptorSize)`
(sink.js line 145). -/
def cellDescriptor (descriptorSize extraSize : ℕ) (pixels : List ℕ) (i : ℕ) : List ℕ :=
  subarray pixels (8 + i + extraSize) (8 + i + extraSize + descriptorSize)

/-- The keypoint assembled from the cell at byte offset `i` (sink.js line 153). -/
def cellKeypoint (FIX m h : ℚ) (descriptorSize extraSize : ℕ)
    (pixels : List ℕ) (i : ℕ) : SpeedyKeypoint :=
  ⟨(cellX pixels i : ℚ) / FIX, (cellY pixels i : ℚ) / FIX,
   cellLod m h pixels i, cellRotation pixels i, cellScore pixels i,
   cellDescriptor descriptorSize extraSize pixels i, cellExtra extraSize pixels i⟩

/-- One step of the decoding loop of `SpeedyPipelineNodeKeypointSink._decode`
(sink.js lines 115–155), with byte cursor `i`, processed-size bound `size`,
cell width `bpk = 4 * pixelsPerKeypoint`, and structural fuel.  OOB byte reads
default to `0` (JS bit-op coercion); the two comparisons that are `false` on
`undefined` carry explicit bounds tests. -/
def decodeGo (FIX m h : ℚ) (pixels : List ℕ) (descriptorSize extraSize : ℕ)
    (size bpk : ℕ) : ℕ → ℕ → List SpeedyKeypoint
  | _, 0 => []
  | i, fuel + 1 =>
    if i < size then
      if 0xFFFF ≤ cellX pixels i ∧ 0xFFFF ≤ cellY pixels i then
        []
      else if cellX pixels i + cellY pixels i = 0 ∧ i + 6 < pixels.length ∧
          pixels.getD (i+6) 0 = 0 then
        decodeGo FIX m h pixels descriptorSize extraSize size bpk (i + bpk) fuel
      else if (cellDescriptor descriptorSize extraSize pixels i).length < descriptorSize ∨
          (cellExtra extraSize pixels i).length < extraSize then
        decodeGo FIX m h pixels descriptorSize extraSize size bpk (i + bpk) fuel
      else
        cellKeypoint FIX m h descriptorSize extraSize pixels i ::
          decodeGo FIX m h pixels descriptorSize extraSize size bpk (i + bpk) fuel
    else []

/-- `SpeedyPipelineNodeKeypointSink._decode(pixels, descriptorSize, extraSize,
encoderLength)` (sink.js lines 96–159).  The fuel `size + 1` dominates the loop
count since the cursor advances by `bpk ≥ 8` per iteration. -/
def decode (FIX m h : ℚ) (pixels : List ℕ)
    (descriptorSize extraSize encoderLength : ℕ) : List SpeedyKeypoint :=
  let ppk := pixelsPerKeypoint descriptorSize extraSize
  let size := min pixels.length (encoderLength * encoderLength * ppk * 4)
  decodeGo FIX m h pixels descriptorSize extraSize size (4 * ppk) 0 (size + 1)

example :
    decode 16 0 9 [16, 0, 32, 0, 0, 127, 5, 0] 0 0 1 =
      [⟨1, 2, 0, -1, 5, [], []⟩] := by
  norm_num [decode, decodeGo, subarray, pixelsPerKeypoint, SpeedyKeypoint.mk.injEq,
    cellKeypoint, cellX, cellY, cellLod, cellRotation, cellScore,
    cellDescriptor, cellExtra]

example : decode 16 0 9 [] 0 0 1 = [] := by
  norm_num [decode, decodeGo, pixelsPerKeypoint]

theorem decodeGo_zero (FIX m h : ℚ) (pixels : List ℕ) (d e size bpk i : ℕ) :
    decodeGo FIX m h pixels d e size bpk i 0 = [] := rfl

theorem decodeGo_succ (FIX m h : ℚ) (pixels : List ℕ) (d e size bpk i fuel : ℕ) :
    decodeGo FIX m h pixels d e size bpk i (fuel + 1) =
      if i < size then
        if 0xFFFF ≤ cellX pixels i ∧ 0xFFFF ≤ cellY pixels i then
          []
        else if cellX pixels i + cellY pixels i = 0 ∧ i + 6 < pixels.length ∧
            pixels.getD (i+6) 0 = 0 then
          decodeGo FIX m h pixels d e size bpk (i + bpk) fuel
        else if (cellDescriptor d e pixels i).length < d ∨
            (cellExtra e pixels i).length < e then
          decodeGo FIX m h pixels d e size bpk (i + bpk) fuel
        else
          cellKeypoint FIX m h d e pixels i ::
            decodeGo FIX m h pixels d e size bpk (i + bpk) fuel
      else [] := rfl

/-- The fuel does not matter as long as it dominates `size - i` (the cursor
advances by `bpk ≥ 1` each iteration). -/
theorem decodeGo_fuel (FIX m h : ℚ) (pixels : List ℕ) (d e size bpk : ℕ)
    (hbpk : 0 < bpk) :
    ∀ (fuel : ℕ) (i fuel' : ℕ), size - i < fuel → size - i < fuel' →
      decodeGo FIX m h pixels d e size bpk i fuel =
        decodeGo FIX m h pixels d e size bpk i fuel' := by
  intro fuel
  induction fuel with
  | zero => intro i fuel' hf _; omega
  | succ n ih =>
    intro i fuel' hf hf'
    match fuel', hf' with
    | fuel'' + 1, _ =>
      rw [decodeGo_succ, decodeGo_succ]
      by_cases hi : i < size
      · simp only [hi, if_true]
        have hrec : size - (i + bpk) < n := by omega
        have hrec' : size - (i + bpk) < fuel'' := by omega
        rw [ih (i + bpk) fuel'' hrec hrec']
      · simp [hi]

theorem decodeGo_stop (FIX m h : ℚ) (pixels : List ℕ) (d e size bpk i fuel : ℕ)
    (hi : ¬ i < size) :
    decodeGo FIX m h pixels d e size bpk i fuel = [] := by
  cases fuel with
  | zero => rfl
  | succ n => rw [decodeGo_succ]; simp [hi]

theorem subarray_length (l : List ℕ) (a b : ℕ) :
    (subarray l a b).length = min b l.length - a := by
  simp [subarray]

/-- Every keypoint in the output of the decoding loop is the keypoint of some
cell at a `bpk`-aligned offset that is in range and passes the truncation
check. -/
theorem decodeGo_mem (FIX m h : ℚ) (pixels : List ℕ) (d e size bpk : ℕ) :
    ∀ (fuel i : ℕ) (kp : SpeedyKeypoint),
      kp ∈ decodeGo FIX m h pixels d e size bpk i fuel →
      ∃ j, i ≤ j ∧ bpk ∣ (j - i) ∧ j < size ∧
        ¬((cellDescriptor d e pixels j).length < d ∨
          (cellExtra e pixels j).length < e) ∧
        kp = cellKeypoint FIX m h d e pixels j := by
  intro fuel
  induction fuel with
  | zero => intro i kp hkp; simp [decodeGo_zero] at hkp
  | succ n ih =>
    intro i kp hkp
    rw [decodeGo_succ] at hkp
    by_cases hi : i < size
    · rw [if_pos hi] at hkp
      by_cases hsent : 0xFFFF ≤ cellX pixels i ∧ 0xFFFF ≤ cellY pixels i
      · rw [if_pos hsent] at hkp; simp at hkp
      · rw [if_neg hsent] at hkp
        by_cases hskip : cellX pixels i + cellY pixels i = 0 ∧ i + 6 < pixels.length ∧
            pixels.getD (i+6) 0 = 0
        · rw [if_pos hskip] at hkp
          obtain ⟨j, hij, hdvd, hj, hlen, hkpeq⟩ := ih (i + bpk) kp hkp
          refine ⟨j, by omega, ?_, hj, hlen, hkpeq⟩
          obtain ⟨c, hc⟩ := hdvd
          exact ⟨c + 1, by rw [Nat.mul_succ]; omega⟩
        · rw [if_neg hskip] at hkp
          by_cases htrunc : (cellDescriptor d e pixels i).length < d ∨
              (cellExtra e pixels i).length < e
          · rw [if_pos htrunc] at hkp
            obtain ⟨j, hij, hdvd, hj, hlen, hkpeq⟩ := ih (i + bpk) kp hkp
            refine ⟨j, by omega, ?_, hj, hlen, hkpeq⟩
            obtain ⟨c, hc⟩ := hdvd
            exact ⟨c + 1, by rw [Nat.mul_succ]; omega⟩
          · rw [if_neg htrunc, List.mem_cons] at hkp
            rcases hkp with hkp | hkp
            · exact ⟨i, le_refl i, ⟨0, by omega⟩, hi, htrunc, hkp⟩
            · obtain ⟨j, hij, hdvd, hj, hlen, hkpeq⟩ := ih (i + bpk) kp hkp
              refine ⟨j, by omega, ?_, hj, hlen, hkpeq⟩
              obtain ⟨c, hc⟩ := hdvd
              exact ⟨c + 1, by rw [Nat.mul_succ]; omega⟩
    · rw [if_neg hi] at hkp; simp at hkp

/-- The decoding loop yields at most one keypoint per `bpk` bytes of the
processed range. -/
theorem decodeGo_length (FIX m h : ℚ) (pixels : List ℕ) (d e size bpk : ℕ)
    (hbpk : 0 < bpk) :
    ∀ (fuel i : ℕ),
      bpk * (decodeGo FIX m h pixels d e size bpk i fuel).length ≤
        (size - i) + (bpk - 1) := by
  intro fuel
  induction fuel with
  | zero => intro i; simp [decodeGo_zero]
  | succ n ih =>
    intro i
    rw [decodeGo_succ]
    by_cases hi : i < size
    · rw [if_pos hi]
      by_cases hsent : 0xFFFF ≤ cellX pixels i ∧ 0xFFFF ≤ cellY pixels i
      · rw [if_pos hsent]; simp
      · rw [if_neg hsent]
        by_cases hskip : cellX pixels i + cellY pixels i = 0 ∧ i + 6 < pixels.length ∧
            pixels.getD (i+6) 0 = 0
        · rw [if_pos hskip]
          have := ih (i + bpk)
          omega
        · rw [if_neg hskip]
          by_cases htrunc : (cellDescriptor d e pixels i).length < d ∨
              (cellExtra e pixels i).length < e
          · rw [if_pos htrunc]
            have := ih (i + bpk)
            omega
          · rw [if_neg htrunc]
            simp only [List.length_cons]
            by_cases hnext : i + bpk < size
            · have := ih (i + bpk)
              have hmul : bpk * ((decodeGo FIX m h pixels d e size bpk (i + bpk) n).length + 1) =
                  bpk * (decodeGo FIX m h pixels d e size bpk (i + bpk) n).length + bpk := by ring
              omega
            · rw [decodeGo_stop FIX m h pixels d e size bpk (i + bpk) n hnext]
              simp only [List.length_nil]
              omega
    · rw [if_neg hi]; simp

theorem decode_eq (FIX m h : ℚ) (pixels : List ℕ) (d e el : ℕ) :
    decode FIX m h pixels d e el =
      decodeGo FIX m h pixels d e
        (min pixels.length (el * el * pixelsPerKeypoint d e * 4))
        (4 * pixelsPerKeypoint d e) 0
        (min pixels.length (el * el * pixelsPerKeypoint d e * 4) + 1) := rfl

theorem pixelsPerKeypoint_ge_two (d e : ℕ) : 2 ≤ pixelsPerKeypoint d e := by
  rw [pixelsPerKeypoint, Nat.le_div_iff_mul_le (by norm_num : 0 < 4)]
  omega

/-- C9: the decoder is a total function; on any byte buffer it returns at most
`⌈min(|pixels|, 4·el²·ppk) / (4·ppk)⌉` keypoints where
`ppk = pixelsPerKeypoint descriptorSize extraSize`, and every returned keypoint
carries exactly `descriptorSize` descriptor bytes and exactly `extraSize` extra
bytes.  (Out-of-bounds reads are modelled as the JS coercions they are.) -/
theorem decode_total_and_bounded (FIX m h : ℚ) (pixels : List ℕ) (d e el : ℕ) :
    (decode FIX m h pixels d e el).length ≤
      (min pixels.length (el * el * pixelsPerKeypoint d e * 4) +
        (4 * pixelsPerKeypoint d e - 1)) / (4 * pixelsPerKeypoint d e) ∧
    ∀ kp ∈ decode FIX m h pixels d e el,
      kp.descriptor.length = d ∧ kp.extra.length = e := by
  have hppk := pixelsPerKeypoint_ge_two d e
  have hbpk : 0 < 4 * pixelsPerKeypoint d e := by omega
  constructor
  · rw [decode_eq, Nat.le_div_iff_mul_le hbpk, Nat.mul_comm]
    have := decodeGo_length FIX m h pixels d e
      (min pixels.length (el * el * pixelsPerKeypoint d e * 4))
      (4 * pixelsPerKeypoint d e) hbpk
      (min pixels.length (el * el * pixelsPerKeypoint d e * 4) + 1) 0
    omega
  · intro kp hkp
    rw [decode_eq] at hkp
    obtain ⟨j, -, -, -, hlen, hkpeq⟩ :=
      decodeGo_mem FIX m h pixels d e _ _ _ _ kp hkp
    push_neg at hlen
    subst hkpeq
    have h1 : (cellDescriptor d e pixels j).length ≤ d := by
      rw [cellDescriptor, subarray_length]; omega
    have h2 : (cellExtra e pixels j).length ≤ e := by
      rw [cellExtra, subarray_length]; omega
    simp only [cellKeypoint]
    exact ⟨by omega, by omega⟩

/-- C3 (amended): in every decoded cell that yields a keypoint, the bytes
following the 8-byte header hold the EXTRA bytes first and the descriptor
bytes after them: the keypoint's extra data equals cell bytes
`[8, 8 + extraSize)` and its descriptor equals cell bytes
`[8 + extraSize, 8 + extraSize + descriptorSize)` (offsets relative to the
cell start `j`, a multiple of the cell width). -/
theorem decode_cell_byte_order (FIX m h : ℚ) (pixels : List ℕ) (d e el : ℕ) :
    ∀ kp ∈ decode FIX m h pixels d e el,
      ∃ j, (4 * pixelsPerKeypoint d e) ∣ j ∧
        kp.extra = subarray pixels (8 + j) (8 + j + e) ∧
        kp.descriptor = subarray pixels (8 + j + e) (8 + j + e + d) := by
  intro kp hkp
  rw [decode_eq] at hkp
  obtain ⟨j, -, hdvd, -, -, hkpeq⟩ :=
    decodeGo_mem FIX m h pixels d e _ _ _ _ kp hkp
  subst hkpeq
  exact ⟨j, by simpa using hdvd, rfl, rfl⟩

theorem decode_c3_buffer_eval :
    decode 16 0 9 [1, 0, 1, 0, 0, 0, 9, 0, 5, 7, 0, 0] 1 1 1 =
      [⟨1/16, 1/16, 0, -255, 9, [7], [5]⟩] := by
  norm_num [decode, decodeGo, pixelsPerKeypoint, cellKeypoint, cellX, cellY,
    cellLod, cellRotation, cellScore, cellDescriptor, cellExtra, subarray,
    SpeedyKeypoint.mk.injEq]

/-- C3 witness: the byte-order theorem applied to the buffer whose cell bytes
8 and 9 are `5` and `7`: the decoded keypoint has extra `[5]` and
descriptor `[7]`. -/
theorem decode_cell_byte_order_witness :
    ∃ j, (4 * pixelsPerKeypoint 1 1) ∣ j ∧
      ([5] : List ℕ) = subarray [1, 0, 1, 0, 0, 0, 9, 0, 5, 7, 0, 0] (8 + j) (8 + j + 1) ∧
      ([7] : List ℕ) = subarray [1, 0, 1, 0, 0, 0, 9, 0, 5, 7, 0, 0] (8 + j + 1) (8 + j + 1 + 1) :=
  decode_cell_byte_order 16 0 9 [1, 0, 1, 0, 0, 0, 9, 0, 5, 7, 0, 0] 1 1 1
    ⟨1/16, 1/16, 0, -255, 9, [7], [5]⟩
    (by rw [decode_c3_buffer_eval]; exact List.mem_singleton.mpr rfl)

/-- C3 counterexample: the claim as stated (descriptor bytes at
`[8, 8 + descriptorSize)`, extra bytes after them) is false: on the cell whose
bytes 8 and 9 are `5` and `7` with `descriptorSize = extraSize = 1`, the
decoder returns descriptor `[7]` (the byte at offset 9), not `[5]`. -/
theorem decode_cell_byte_order_cex :
    ¬ (∀ kp ∈ decode 16 0 9 [1, 0, 1, 0, 0, 0, 9, 0, 5, 7, 0, 0] 1 1 1,
        kp.descriptor = subarray [1, 0, 1, 0, 0, 0, 9, 0, 5, 7, 0, 0] 8 (8 + 1) ∧
        kp.extra = subarray [1, 0, 1, 0, 0, 0, 9, 0, 5, 7, 0, 0] (8 + 1) (8 + 1 + 1)) := by
  intro hcl
  have h := hcl ⟨1/16, 1/16, 0, -255, 9, [7], [5]⟩
    (by rw [decode_c3_buffer_eval]; exact List.mem_singleton.mpr rfl)
  simp [subarray] at h

theorem getD_shift (A B : List ℕ) (t : ℕ) :
    (A ++ B).getD (A.length + t) 0 = B.getD t 0 := by
  rw [List.getD_append_right A B 0 (A.length + t) (by omega)]
  congr 1
  omega

theorem getD_take (p : List ℕ) (K t : ℕ) (h : t < K) :
    (p.take K).getD t 0 = p.getD t 0 := by
  rw [List.getD_eq_getElem?_getD, List.getD_eq_getElem?_getD, List.getElem?_take]
  simp [h]

theorem subarray_shift (A B : List ℕ) (a b : ℕ) :
    subarray (A ++ B) (A.length + a) (A.length + b) = subarray B a b := by
  simp only [subarray, List.take_append_eq_append_take,
    List.take_of_length_le (by omega : A.length ≤ A.length + b),
    List.drop_append_eq_append_drop,
    List.drop_of_length_le (by omega : A.length ≤ A.length + a)]
  simp

theorem subarray_take (p : List ℕ) (K a b : ℕ) (h : b ≤ K) :
    subarray (p.take K) a b = subarray p a b := by
  simp only [subarray, List.take_take, min_eq_left h]

theorem cellX_shift (A B : List ℕ) (j : ℕ) :
    cellX (A ++ B) (A.length + j) = cellX B j := by
  have h1 : (A ++ B).getD (A.length + j + 1) 0 = B.getD (j + 1) 0 := getD_shift A B (j + 1)
  have h0 := getD_shift A B j
  simp only [cellX, h1, h0]

theorem cellY_shift (A B : List ℕ) (j : ℕ) :
    cellY (A ++ B) (A.length + j) = cellY B j := by
  have h3 : (A ++ B).getD (A.length + j + 3) 0 = B.getD (j + 3) 0 := getD_shift A B (j + 3)
  have h2 : (A ++ B).getD (A.length + j + 2) 0 = B.getD (j + 2) 0 := getD_shift A B (j + 2)
  simp only [cellY, h3, h2]

theorem cellLod_shift (m h : ℚ) (A B : List ℕ) (j : ℕ) :
    cellLod m h (A ++ B) (A.length + j) = cellLod m h B j := by
  have h4 : (A ++ B).getD (A.length + j + 4) 0 = B.getD (j + 4) 0 := getD_shift A B (j + 4)
  have hlen : A.length + j + 4 < (A ++ B).length ↔ j + 4 < B.length := by
    rw [List.length_append]; omega
  simp only [cellLod, h4, hlen]

theorem cellRotation_shift (A B : List ℕ) (j : ℕ) :
    cellRotation (A ++ B) (A.length + j) = cellRotation B j := by
  have h5 : (A ++ B).getD (A.length + j + 5) 0 = B.getD (j + 5) 0 := getD_shift A B (j + 5)
  simp only [cellRotation, h5]

theorem cellScore_shift (A B : List ℕ) (j : ℕ) :
    cellScore (A ++ B) (A.length + j) = cellScore B j := by
  have h7 : (A ++ B).getD (A.length + j + 7) 0 = B.getD (j + 7) 0 := getD_shift A B (j + 7)
  have h6 : (A ++ B).getD (A.length + j + 6) 0 = B.getD (j + 6) 0 := getD_shift A B (j + 6)
  simp only [cellScore, h7, h6]

theorem cellExtra_shift (e : ℕ) (A B : List ℕ) (j : ℕ) :
    cellExtra e (A ++ B) (A.length + j) = cellExtra e B j := by
  have := subarray_shift A B (8 + j) (8 + j + e)
  simpa [cellExtra, show A.length + (8 + j) = 8 + (A.length + j) by omega,
    show A.length + (8 + j + e) = 8 + (A.length + j) + e by omega] using this

theorem cellDescriptor_shift (d e : ℕ) (A B : List ℕ) (j : ℕ) :
    cellDescriptor d e (A ++ B) (A.length + j) = cellDescriptor d e B j := by
  have := subarray_shift A B (8 + j + e) (8 + j + e + d)
  simpa [cellDescriptor, show A.length + (8 + j + e) = 8 + (A.length + j) + e by omega,
    show A.length + (8 + j + e + d) = 8 + (A.length + j) + e + d by omega] using this

theorem cellKeypoint_shift (FIX m h : ℚ) (d e : ℕ) (A B : List ℕ) (j : ℕ) :
    cellKeypoint FIX m h d e (A ++ B) (A.length + j) = cellKeypoint FIX m h d e B j := by
  simp only [cellKeypoint, cellX_shift, cellY_shift, cellLod_shift, cellRotation_shift,
    cellScore_shift, cellExtra_shift, cellDescriptor_shift]

/-- Decoding a buffer `A ++ B` from a cursor inside `B`, with the size bound
shifted accordingly, is decoding `B`. -/
theorem decodeGo_append_left (FIX m h : ℚ) (A B : List ℕ) (d e s bpk : ℕ) :
    ∀ (fuel j : ℕ),
      decodeGo FIX m h (A ++ B) d e (A.length + s) bpk (A.length + j) fuel =
        decodeGo FIX m h B d e s bpk j fuel := by
  intro fuel
  induction fuel with
  | zero => intro j; rfl
  | succ n ih =>
    intro j
    rw [decodeGo_succ, decodeGo_succ]
    have hif : A.length + j < A.length + s ↔ j < s := by omega
    by_cases hj : j < s
    · rw [if_pos (hif.mpr hj), if_pos hj]
      rw [cellX_shift, cellY_shift, cellKeypoint_shift, cellExtra_shift, cellDescriptor_shift]
      have h6 : (A ++ B).getD (A.length + j + 6) 0 = B.getD (j + 6) 0 := getD_shift A B (j + 6)
      have hlen : A.length + j + 6 < (A ++ B).length ↔ j + 6 < B.length := by
        rw [List.length_append]; omega
      have hrec : A.length + j + bpk = A.length + (j + bpk) := by omega
      rw [h6]
      by_cases hsent : 0xFFFF ≤ cellX B j ∧ 0xFFFF ≤ cellY B j
      · rw [if_pos hsent, if_pos hsent]
      · rw [if_neg hsent, if_neg hsent]
        by_cases hskip : cellX B j + cellY B j = 0 ∧ j + 6 < B.length ∧ B.getD (j + 6) 0 = 0
        · rw [if_pos (by tauto), if_pos hskip, hrec, ih]
        · rw [if_neg (by tauto), if_neg hskip]
          by_cases htrunc : (cellDescriptor d e B j).length < d ∨ (cellExtra e B j).length < e
          · rw [if_pos htrunc, if_pos htrunc, hrec, ih]
          · rw [if_neg htrunc, if_neg htrunc, hrec, ih]
    · rw [if_neg (by omega), if_neg hj]

theorem cellX_take (p : List ℕ) (K i : ℕ) (h : i + 2 ≤ K) :
    cellX (p.take K) i = cellX p i := by
  simp only [cellX, getD_take p K (i+1) (by omega), getD_take p K i (by omega)]

theorem cellY_take (p : List ℕ) (K i : ℕ) (h : i + 4 ≤ K) :
    cellY (p.take K) i = cellY p i := by
  simp only [cellY, getD_take p K (i+3) (by omega), getD_take p K (i+2) (by omega)]

theorem cellLod_take (m h : ℚ) (p : List ℕ) (K i : ℕ) (hK : i + 5 ≤ K) :
    cellLod m h (p.take K) i = cellLod m h p i := by
  have hlen : i + 4 < (p.take K).length ↔ i + 4 < p.length := by
    rw [List.length_take]; omega
  simp only [cellLod, getD_take p K (i+4) (by omega), hlen]

theorem cellRotation_take (p : List ℕ) (K i : ℕ) (h : i + 6 ≤ K) :
    cellRotation (p.take K) i = cellRotation p i := by
  simp only [cellRotation, getD_take p K (i+5) (by omega)]

theorem cellScore_take (p : List ℕ) (K i : ℕ) (h : i + 8 ≤ K) :
    cellScore (p.take K) i = cellScore p i := by
  simp only [cellScore, getD_take p K (i+7) (by omega), getD_take p K (i+6) (by omega)]

theorem cellExtra_take (e : ℕ) (p : List ℕ) (K i : ℕ) (h : 8 + i + e ≤ K) :
    cellExtra e (p.take K) i = cellExtra e p i := by
  simp only [cellExtra, subarray_take p K (8+i) (8+i+e) (by omega)]

theorem cellDescriptor_take (d e : ℕ) (p : List ℕ) (K i : ℕ) (h : 8 + i + e + d ≤ K) :
    cellDescriptor d e (p.take K) i = cellDescriptor d e p i := by
  simp only [cellDescriptor, subarray_take p K (8+i+e) (8+i+e+d) (by omega)]

theorem cellKeypoint_take (FIX m h : ℚ) (d e : ℕ) (p : List ℕ) (K i : ℕ)
    (hK : 8 + i + e + d ≤ K) (hK8 : i + 8 ≤ K) :
    cellKeypoint FIX m h d e (p.take K) i = cellKeypoint FIX m h d e p i := by
  simp only [cellKeypoint, cellX_take p K i (by omega), cellY_take p K i (by omega),
    cellLod_take m h p K i (by omega), cellRotation_take p K i (by omega),
    cellScore_take p K i (by omega), cellExtra_take e p K i (by omega),
    cellDescriptor_take d e p K i hK]

/-- Core of the sentinel property: if the cell at the `bpk`-aligned offset `K`
carries the sentinel pattern, decoding the whole buffer from any aligned
cursor `i ≤ K` agrees with decoding the buffer truncated at `K`. -/
theorem decodeGo_sentinel_take (FIX m h : ℚ) (pixels : List ℕ) (d e bpk K e2 : ℕ)
    (h8 : 8 ≤ bpk) (hde : 8 + e + d ≤ bpk) (hK : bpk ∣ K)
    (hsent : 0xFFFF ≤ cellX pixels K ∧ 0xFFFF ≤ cellY pixels K) :
    ∀ (fuel : ℕ) (i fuel' : ℕ), bpk ∣ i → i ≤ K →
      min K (min pixels.length e2) - i < fuel →
      min K (min (min K pixels.length) e2) - i < fuel' →
      decodeGo FIX m h pixels d e (min pixels.length e2) bpk i fuel =
        decodeGo FIX m h (pixels.take K) d e (min (min K pixels.length) e2) bpk i fuel' := by
  intro fuel
  induction fuel with
  | zero => intro i fuel' _ _ hf _; omega
  | succ n ih =>
    intro i fuel' hdvd hiK hf hf'
    match fuel', hf' with
    | fuel'' + 1, _ =>
      rw [decodeGo_succ, decodeGo_succ]
      by_cases hs2 : i < min (min K pixels.length) e2
      · -- cursor strictly inside the truncated processed range: i < K
        have hiltK : i < K := by omega
        have hstep : i + bpk ≤ K := by
          obtain ⟨a, rfl⟩ := hdvd
          obtain ⟨b, hb⟩ := hK
          have : a < b := by nlinarith [Nat.lt_of_mul_lt_mul_left (a := bpk) (by omega : bpk * a < bpk * b)]
          calc bpk * a + bpk = bpk * (a + 1) := by ring
          _ ≤ bpk * b := Nat.mul_le_mul_left bpk (by omega)
          _ = K := hb.symm
        have hs1 : i < min pixels.length e2 := by omega
        have hdvd' : bpk ∣ (i + bpk) := dvd_add hdvd dvd_rfl
        have hfa : min K (min pixels.length e2) - (i + bpk) < n := by omega
        have hfb : min K (min (min K pixels.length) e2) - (i + bpk) < fuel'' := by omega
        have ihnext := ih (i + bpk) fuel'' hdvd' hstep hfa hfb
        rw [if_pos hs1, if_pos hs2]
        rw [cellX_take pixels K i (by omega), cellY_take pixels K i (by omega),
          cellKeypoint_take FIX m h d e pixels K i (by omega) (by omega),
          cellExtra_take e pixels K i (by omega),
          cellDescriptor_take d e pixels K i (by omega)]
        have h6 : (pixels.take K).getD (i+6) 0 = pixels.getD (i+6) 0 :=
          getD_take pixels K (i+6) (by omega)
        have hlen : i + 6 < (pixels.take K).length ↔ i + 6 < pixels.length := by
          rw [List.length_take]; omega
        rw [h6]
        by_cases hsent0 : 0xFFFF ≤ cellX pixels i ∧ 0xFFFF ≤ cellY pixels i
        · rw [if_pos hsent0, if_pos hsent0]
        · rw [if_neg hsent0, if_neg hsent0]
          by_cases hskip : cellX pixels i + cellY pixels i = 0 ∧ i + 6 < pixels.length ∧
              pixels.getD (i+6) 0 = 0
          · have hskip' : cellX pixels i + cellY pixels i = 0 ∧
                i + 6 < (List.take K pixels).length ∧ pixels.getD (i+6) 0 = 0 :=
              ⟨hskip.1, hlen.mpr hskip.2.1, hskip.2.2⟩
            rw [if_pos hskip, if_pos hskip']
            exact ihnext
          · have hskip' : ¬(cellX pixels i + cellY pixels i = 0 ∧
                i + 6 < (List.take K pixels).length ∧ pixels.getD (i+6) 0 = 0) :=
              fun hc => hskip ⟨hc.1, hlen.mp hc.2.1, hc.2.2⟩
            rw [if_neg hskip, if_neg hskip']
            by_cases htrunc : (cellDescriptor d e pixels i).length < d ∨
                (cellExtra e pixels i).length < e
            · rw [if_pos htrunc, if_pos htrunc]
              exact ihnext
            · rw [if_neg htrunc, if_neg htrunc, ihnext]
      · -- the truncated decode stops here; show the full decode also yields []
        rw [if_neg hs2]
        by_cases hs1 : i < min pixels.length e2
        · -- then i = K: the sentinel cell stops the full decode
          have hiK' : i = K := by omega
          rw [if_pos hs1, hiK', if_pos hsent]
        · rw [if_neg hs1]

theorem subarray_left (A B : List ℕ) (a b : ℕ) (h : b ≤ A.length) :
    subarray (A ++ B) a b = subarray A a b := by
  simp only [subarray, List.take_append_eq_append_take,
    show b - A.length = 0 by omega, List.take_zero, List.append_nil]

theorem cellX_left (A B : List ℕ) (i : ℕ) (h : i + 2 ≤ A.length) :
    cellX (A ++ B) i = cellX A i := by
  simp only [cellX, List.getD_append A B 0 (i+1) (by omega),
    List.getD_append A B 0 i (by omega)]

theorem cellY_left (A B : List ℕ) (i : ℕ) (h : i + 4 ≤ A.length) :
    cellY (A ++ B) i = cellY A i := by
  simp only [cellY, List.getD_append A B 0 (i+3) (by omega),
    List.getD_append A B 0 (i+2) (by omega)]

theorem cellLod_left (m h : ℚ) (A B : List ℕ) (i : ℕ) (hA : i + 5 ≤ A.length) :
    cellLod m h (A ++ B) i = cellLod m h A i := by
  have hl : i + 4 < (A ++ B).length := by rw [List.length_append]; omega
  have hl' : i + 4 < A.length := by omega
  simp only [cellLod, List.getD_append A B 0 (i+4) (by omega), hl, hl', true_and]

theorem cellRotation_left (A B : List ℕ) (i : ℕ) (h : i + 6 ≤ A.length) :
    cellRotation (A ++ B) i = cellRotation A i := by
  simp only [cellRotation, List.getD_append A B 0 (i+5) (by omega)]

theorem cellScore_left (A B : List ℕ) (i : ℕ) (h : i + 8 ≤ A.length) :
    cellScore (A ++ B) i = cellScore A i := by
  simp only [cellScore, List.getD_append A B 0 (i+7) (by omega),
    List.getD_append A B 0 (i+6) (by omega)]

theorem cellExtra_left (e : ℕ) (A B : List ℕ) (i : ℕ) (h : 8 + i + e ≤ A.length) :
    cellExtra e (A ++ B) i = cellExtra e A i := by
  simp only [cellExtra, subarray_left A B (8+i) (8+i+e) h]

theorem cellDescriptor_left (d e : ℕ) (A B : List ℕ) (i : ℕ)
    (h : 8 + i + e + d ≤ A.length) :
    cellDescriptor d e (A ++ B) i = cellDescriptor d e A i := by
  simp only [cellDescriptor, subarray_left A B (8+i+e) (8+i+e+d) h]

theorem cellKeypoint_left (FIX m h : ℚ) (d e : ℕ) (A B : List ℕ) (i : ℕ)
    (hde : 8 + i + e + d ≤ A.length) (h8 : i + 8 ≤ A.length) :
    cellKeypoint FIX m h d e (A ++ B) i = cellKeypoint FIX m h d e A i := by
  simp only [cellKeypoint, cellX_left A B i (by omega), cellY_left A B i (by omega),
    cellLod_left m h A B i (by omega), cellRotation_left A B i (by omega),
    cellScore_left A B i (by omega), cellExtra_left e A B i (by omega),
    cellDescriptor_left d e A B i hde]

theorem bpk_ge (d e : ℕ) : 8 + d + e ≤ 4 * pixelsPerKeypoint d e := by
  have := Nat.div_add_mod (8 + d + e + 3) 4
  have h4 : (8 + d + e + 3) % 4 < 4 := Nat.mod_lt _ (by norm_num)
  simp only [pixelsPerKeypoint]
  omega

/-- Decoding a buffer that starts with one full cell `p₀` (of exactly the cell
width) followed by `X`: the first cell either ends the list (sentinel), is
skipped (zero header), or contributes its keypoint; decoding continues on `X`.
Requires the whole buffer to fit in the encoder capacity. -/
theorem decode_cons_cell (FIX m h : ℚ) (d e el : ℕ) (p₀ X : List ℕ)
    (hp : p₀.length = 4 * pixelsPerKeypoint d e)
    (hcap : p₀.length + X.length ≤ el * el * pixelsPerKeypoint d e * 4) :
    decode FIX m h (p₀ ++ X) d e el =
      if 0xFFFF ≤ cellX p₀ 0 ∧ 0xFFFF ≤ cellY p₀ 0 then []
      else if cellX p₀ 0 + cellY p₀ 0 = 0 ∧ p₀.getD 6 0 = 0 then
        decode FIX m h X d e el
      else
        cellKeypoint FIX m h d e p₀ 0 :: decode FIX m h X d e el := by
  have hppk := pixelsPerKeypoint_ge_two d e
  have hbpkde := bpk_ge d e
  have hlen : (p₀ ++ X).length = p₀.length + X.length := List.length_append p₀ X
  have hsize1 : min (p₀ ++ X).length (el * el * pixelsPerKeypoint d e * 4) =
      p₀.length + X.length := by omega
  have hsizeX : min X.length (el * el * pixelsPerKeypoint d e * 4) = X.length := by omega
  rw [decode_eq, decode_eq, hsize1, hsizeX]
  rw [decodeGo_succ]
  rw [if_pos (by omega : 0 < p₀.length + X.length)]
  rw [cellX_left p₀ X 0 (by omega), cellY_left p₀ X 0 (by omega),
    cellKeypoint_left FIX m h d e p₀ X 0 (by omega) (by omega)]
  have h6 : (p₀ ++ X).getD (0+6) 0 = p₀.getD 6 0 := by
    simpa using List.getD_append p₀ X 0 6 (by omega)
  have h6len : (0:ℕ) + 6 < (p₀ ++ X).length := by omega
  have hshift : ∀ fuel,
      decodeGo FIX m h (p₀ ++ X) d e (p₀.length + X.length)
        (4 * pixelsPerKeypoint d e) (0 + 4 * pixelsPerKeypoint d e) fuel =
      decodeGo FIX m h X d e X.length (4 * pixelsPerKeypoint d e) 0 fuel := by
    intro fuel
    have := decodeGo_append_left FIX m h p₀ X d e X.length (4 * pixelsPerKeypoint d e) fuel 0
    rw [show (0:ℕ) + 4 * pixelsPerKeypoint d e = p₀.length + 0 by omega]
    exact this
  have hfuel : ∀ fuel, X.length < fuel →
      decodeGo FIX m h X d e X.length (4 * pixelsPerKeypoint d e) 0 fuel =
      decodeGo FIX m h X d e X.length (4 * pixelsPerKeypoint d e) 0 (X.length + 1) := by
    intro fuel hf
    exact decodeGo_fuel FIX m h X d e X.length (4 * pixelsPerKeypoint d e) (by omega)
      fuel 0 (X.length + 1) (by omega) (by omega)
  by_cases hsent : 0xFFFF ≤ cellX p₀ 0 ∧ 0xFFFF ≤ cellY p₀ 0
  · rw [if_pos hsent, if_pos hsent]
  · rw [if_neg hsent, if_neg hsent]
    by_cases hskip : cellX p₀ 0 + cellY p₀ 0 = 0 ∧ p₀.getD 6 0 = 0
    · rw [if_pos (by rw [h6]; exact ⟨hskip.1, h6len, hskip.2⟩), if_pos hskip]
      rw [hshift, hfuel _ (by omega)]
    · rw [if_neg (by rw [h6]; intro hc; exact hskip ⟨hc.1, hc.2.2⟩), if_neg hskip]
      have htrunc : ¬((cellDescriptor d e (p₀ ++ X) 0).length < d ∨
          (cellExtra e (p₀ ++ X) 0).length < e) := by
        push_neg
        constructor
        · rw [cellDescriptor, subarray_length]
          omega
        · rw [cellExtra, subarray_length]
          omega
      rw [if_neg htrunc]
      rw [hshift, hfuel _ (by omega)]

/-- C5: the decoder stops at a sentinel cell (raw position bytes
`FF FF FF FF`, i.e. raw `x = y = 0xFFFF`) at cell index `k`: the result equals
the decoding of the buffer truncated right before that cell, and at most `k`
keypoints are returned — cells at or after the sentinel contribute nothing. -/
theorem decode_sentinel_stops (FIX m h : ℚ) (pixels : List ℕ) (d e el k : ℕ)
    (hsent : 0xFFFF ≤ cellX pixels (k * (4 * pixelsPerKeypoint d e)) ∧
             0xFFFF ≤ cellY pixels (k * (4 * pixelsPerKeypoint d e))) :
    decode FIX m h pixels d e el =
      decode FIX m h (pixels.take (k * (4 * pixelsPerKeypoint d e))) d e el ∧
    (decode FIX m h pixels d e el).length ≤ k := by
  have hppk := pixelsPerKeypoint_ge_two d e
  have hbpkde := bpk_ge d e
  have heq : decode FIX m h pixels d e el =
      decode FIX m h (pixels.take (k * (4 * pixelsPerKeypoint d e))) d e el := by
    rw [decode_eq, decode_eq]
    simp only [List.length_take]
    exact decodeGo_sentinel_take FIX m h pixels d e (4 * pixelsPerKeypoint d e)
      (k * (4 * pixelsPerKeypoint d e)) (el * el * pixelsPerKeypoint d e * 4)
      (by omega) (by omega) (Dvd.intro_left k rfl) hsent
      _ 0 _ (dvd_zero _) (Nat.zero_le _) (by omega) (by omega)
  refine ⟨heq, ?_⟩
  rw [heq, decode_eq]
  have hlen := decodeGo_length FIX m h (pixels.take (k * (4 * pixelsPerKeypoint d e))) d e
    (min (pixels.take (k * (4 * pixelsPerKeypoint d e))).length
      (el * el * pixelsPerKeypoint d e * 4))
    (4 * pixelsPerKeypoint d e) (by omega)
    (min (pixels.take (k * (4 * pixelsPerKeypoint d e))).length
      (el * el * pixelsPerKeypoint d e * 4) + 1) 0
  have hlen2 : (pixels.take (k * (4 * pixelsPerKeypoint d e))).length ≤
      k * (4 * pixelsPerKeypoint d e) := by
    rw [List.length_take]; omega
  by_contra hgt
  push_neg at hgt
  have : 4 * pixelsPerKeypoint d e * (k + 1) ≤
      4 * pixelsPerKeypoint d e *
        (decodeGo FIX m h (pixels.take (k * (4 * pixelsPerKeypoint d e))) d e
          (min (pixels.take (k * (4 * pixelsPerKeypoint d e))).length
            (el * el * pixelsPerKeypoint d e * 4))
          (4 * pixelsPerKeypoint d e) 0
          (min (pixels.take (k * (4 * pixelsPerKeypoint d e))).length
            (el * el * pixelsPerKeypoint d e * 4) + 1)).length :=
    Nat.mul_le_mul_left _ hgt
  have hexp : 4 * pixelsPerKeypoint d e * (k + 1) =
      k * (4 * pixelsPerKeypoint d e) + 4 * pixelsPerKeypoint d e := by ring
  omega

/-- C5 witness: a buffer holding one valid keypoint cell followed by a
sentinel cell `FF FF FF FF …` decodes like its 8-byte prefix and yields at
most one keypoint. -/
theorem decode_sentinel_stops_witness :
    decode 16 0 9 [16, 0, 32, 0, 0, 127, 5, 0,
                   255, 255, 255, 255, 0, 0, 0, 0] 0 0 2 =
      decode 16 0 9 ([16, 0, 32, 0, 0, 127, 5, 0,
                      255, 255, 255, 255, 0, 0, 0, 0].take
        (1 * (4 * pixelsPerKeypoint 0 0))) 0 0 2 ∧
    (decode 16 0 9 [16, 0, 32, 0, 0, 127, 5, 0,
                    255, 255, 255, 255, 0, 0, 0, 0] 0 0 2).length ≤ 1 :=
  decode_sentinel_stops 16 0 9 _ 0 0 2 1 (by decide)

/-- C6: a cell whose raw `x + y` is zero and whose score low byte (cell byte 6)
is zero produces no keypoint, and decoding continues with the next cell
instead of stopping: removing the cell from the buffer leaves the decoder's
output unchanged (for buffers within the encoder capacity, split at cell
boundaries). -/
theorem decode_empty_cell_skip (FIX m h : ℚ) (d e el : ℕ) (P c S : List ℕ)
    (hP : (4 * pixelsPerKeypoint d e) ∣ P.length)
    (hc : c.length = 4 * pixelsPerKeypoint d e)
    (hxy : cellX c 0 + cellY c 0 = 0)
    (h6 : c.getD 6 0 = 0)
    (hcap : P.length + c.length + S.length ≤ el * el * pixelsPerKeypoint d e * 4) :
    decode FIX m h (P ++ c ++ S) d e el = decode FIX m h (P ++ S) d e el := by
  have hppk := pixelsPerKeypoint_ge_two d e
  suffices H : ∀ (n : ℕ) (P : List ℕ), P.length = n →
      (4 * pixelsPerKeypoint d e) ∣ P.length →
      P.length + c.length + S.length ≤ el * el * pixelsPerKeypoint d e * 4 →
      decode FIX m h (P ++ c ++ S) d e el = decode FIX m h (P ++ S) d e el by
    exact H P.length P rfl hP hcap
  intro n
  induction n using Nat.strong_induction_on with
  | _ n ih =>
    intro P hPn hPdvd hPcap
    rcases Nat.eq_zero_or_pos n with hn0 | hnpos
    · have hPnil : P = [] := List.length_eq_zero.mp (by omega)
      subst hPnil
      simp only [List.nil_append]
      rw [decode_cons_cell FIX m h d e el c S hc (by simpa using hPcap)]
      rw [if_neg (by omega), if_pos ⟨hxy, h6⟩]
    · have hbpkpos : 0 < 4 * pixelsPerKeypoint d e := by omega
      have hnbpk : 4 * pixelsPerKeypoint d e ≤ n := by
        rcases hPdvd with ⟨t, ht⟩
        rcases Nat.eq_zero_or_pos t with ht0 | htpos
        · rw [ht0, Nat.mul_zero] at ht; omega
        · calc 4 * pixelsPerKeypoint d e = 4 * pixelsPerKeypoint d e * 1 := by ring
          _ ≤ 4 * pixelsPerKeypoint d e * t := Nat.mul_le_mul_left _ htpos
          _ = P.length := ht.symm
          _ = n := hPn
      set p₀ := P.take (4 * pixelsPerKeypoint d e) with hp₀
      set P' := P.drop (4 * pixelsPerKeypoint d e) with hP'
      have hsplit : P = p₀ ++ P' := (List.take_append_drop _ P).symm
      have hp₀len : p₀.length = 4 * pixelsPerKeypoint d e := by
        rw [hp₀, List.length_take]; omega
      have hP'len : P'.length = n - 4 * pixelsPerKeypoint d e := by
        rw [hP', List.length_drop]; omega
      have hP'dvd : (4 * pixelsPerKeypoint d e) ∣ P'.length := by
        rw [hP'len, ← hPn]
        exact Nat.dvd_sub' hPdvd dvd_rfl
      rw [hsplit]
      have hassoc1 : p₀ ++ P' ++ c ++ S = p₀ ++ (P' ++ c ++ S) := by
        simp [List.append_assoc]
      have hassoc2 : p₀ ++ P' ++ S = p₀ ++ (P' ++ S) := by
        simp [List.append_assoc]
      rw [hassoc1, hassoc2]
      rw [decode_cons_cell FIX m h d e el p₀ (P' ++ c ++ S) hp₀len
        (by simp only [List.length_append]; omega)]
      rw [decode_cons_cell FIX m h d e el p₀ (P' ++ S) hp₀len
        (by simp only [List.length_append]; omega)]
      have htails : decode FIX m h (P' ++ c ++ S) d e el =
          decode FIX m h (P' ++ S) d e el := by
        refine ih P'.length (by omega) P' rfl hP'dvd ?_
        omega
      rw [htails]

/-- C6 witness: an all-zero 8-byte cell in front of a valid keypoint cell is
skipped; the decoder's output is as if the zero cell were absent. -/
theorem decode_empty_cell_skip_witness :
    decode 16 0 9 (([] : List ℕ) ++ [0, 0, 0, 0, 0, 0, 0, 0] ++
        [16, 0, 32, 0, 0, 127, 5, 0]) 0 0 2 =
      decode 16 0 9 (([] : List ℕ) ++ [16, 0, 32, 0, 0, 127, 5, 0]) 0 0 2 :=
  decode_empty_cell_skip 16 0 9 0 0 2 [] [0, 0, 0, 0, 0, 0, 0, 0]
    [16, 0, 32, 0, 0, 127, 5, 0] (by decide) (by decide) (by decide) (by decide)
    (by decide)

/-!
The keypoint round trip (spec §4.5 / §8.4).  The encoder side of the codec
for full keypoints (with lod, orientation, score, descriptor and extra bytes)
is spread over shader stages that are not among the sources at hand
(`keypoints.glsl`, the descriptor shaders and `upload-keypoints`); only its
contract is given by the spec's packed-cell table.  It is therefore modelled
from the spec here, with one amendment forced by the decoder in `sink.js`:
the bytes after the 8-byte header hold the EXTRA bytes first and then the
descriptor bytes (the spec table says descriptor-then-extra, which the
decoder refutes — see `decode_cell_byte_order_cex`).
-/

/-- Modelled from the spec: 16-bit fixed-point quantization of a coordinate
with resolution `FIX` (§4.5 "position in fixed-point", §6 `FIX_RESOLUTION`). -/
def encodeFix (FIX : ℚ) (q : ℚ) : ℕ :=
  (⌊q * FIX⌋).toNat

/-- Modelled from the spec: the lod byte, the rounded inverse of the decoder's
`lod = -m + (m + h) * byte / 255` (§4.5). -/
def encodeLodByte (m h lod : ℚ) : ℕ :=
  (⌊(lod + m) * 255 / (m + h) + 1/2⌋).toNat

/-- Modelled from the spec: the orientation byte, the rounded inverse of the
decoder's `rotation = (2 * byte - 255) * π/255` (§4.5); `rot` is the rotation
in units of `π/255`. -/
def encodeRotationByte (rot : ℤ) : ℕ :=
  ((rot + 255) / 2).toNat

/-- Modelled from the spec: one packed RGBA8 cell of the dense encoding
(§4.5): pixel 0 = position (little-endian 16-bit x, y), pixel 1 = lod byte,
orientation byte, score (little-endian 16 bit), then the payload bytes padded
with zeros to the cell width — amended to extra-then-descriptor order. -/
def encodeKeypointCell (FIX m h : ℚ) (d e : ℕ) (kp : SpeedyKeypoint) : List ℕ :=
  [encodeFix FIX kp.x % 256, encodeFix FIX kp.x / 256,
   encodeFix FIX kp.y % 256, encodeFix FIX kp.y / 256,
   encodeLodByte m h kp.lod, encodeRotationByte kp.rotation,
   kp.score % 256, kp.score / 256] ++
  kp.extra ++ kp.descriptor ++
  List.replicate (4 * pixelsPerKeypoint d e - (8 + e + d)) 0

/-- Modelled from the spec: the dense packed encoding of a keypoint list is
the concatenation of its cells (§4.5, one cell per keypoint, consecutive in
row-major order). -/
def encodeKeypoints (FIX m h : ℚ) (d e : ℕ) (kps : List SpeedyKeypoint) : List ℕ :=
  (kps.map (encodeKeypointCell FIX m h d e)).flatten

/-- The per-field quantization that one encode/decode round trip applies:
positions are floored to the fixed-point grid, lod and orientation go through
their byte codecs, score and payload bytes are untouched. -/
def quantizeKeypoint (FIX m h : ℚ) (kp : SpeedyKeypoint) : SpeedyKeypoint :=
  ⟨(encodeFix FIX kp.x : ℚ) / FIX, (encodeFix FIX kp.y : ℚ) / FIX,
   -m + ((m + h) * (encodeLodByte m h kp.lod : ℚ)) / 255,
   2 * (encodeRotationByte kp.rotation : ℤ) - 255,
   kp.score, kp.descriptor, kp.extra⟩

/-- The hypotheses under which a keypoint survives the round trip: nonnegative
in-range position (raw coordinates below the sentinel value `0xFFFF`), a lod
inside the representable range (byte below 255), a 16-bit score, payload sizes
matching the pipeline's `descriptorSize`/`extraSize`, and not presenting the
empty-cell pattern (zero raw position with zero score low byte). -/
def KpInRange (FIX m h : ℚ) (d e : ℕ) (kp : SpeedyKeypoint) : Prop :=
  0 ≤ kp.x ∧ 0 ≤ kp.y ∧
  encodeFix FIX kp.x < 65535 ∧ encodeFix FIX kp.y < 65535 ∧
  encodeLodByte m h kp.lod < 255 ∧
  kp.score < 65536 ∧
  (0 < encodeFix FIX kp.x + encodeFix FIX kp.y ∨ kp.score % 256 ≠ 0) ∧
  kp.descriptor.length = d ∧ kp.extra.length = e

theorem encodeKeypointCell_length (FIX m h : ℚ) (d e : ℕ) (kp : SpeedyKeypoint)
    (hd : kp.descriptor.length = d) (he : kp.extra.length = e) :
    (encodeKeypointCell FIX m h d e kp).length = 4 * pixelsPerKeypoint d e := by
  have := bpk_ge d e
  simp only [encodeKeypointCell, List.length_append, List.length_replicate]
  simp only [List.length_cons, List.length_nil, hd, he]
  omega

theorem encodeKeypoints_length (FIX m h : ℚ) (d e : ℕ) (kps : List SpeedyKeypoint)
    (hwf : ∀ kp ∈ kps, kp.descriptor.length = d ∧ kp.extra.length = e) :
    (encodeKeypoints FIX m h d e kps).length = kps.length * (4 * pixelsPerKeypoint d e) := by
  induction kps with
  | nil => simp [encodeKeypoints]
  | cons kp kps ih =>
    have hkp := hwf kp (List.mem_cons_self kp kps)
    have hrest := ih (fun k hk => hwf k (List.mem_cons_of_mem kp hk))
    simp only [encodeKeypoints, List.map_cons, List.flatten_cons, List.length_append]
    rw [encodeKeypointCell_length FIX m h d e kp hkp.1 hkp.2]
    simp only [encodeKeypoints] at hrest
    rw [hrest]
    simp only [List.length_cons]
    ring

theorem subarray_middle (A B R : List ℕ) :
    subarray (A ++ (B ++ R)) A.length (A.length + B.length) = B := by
  simp only [subarray]
  rw [List.take_append_eq_append_take,
    List.take_of_length_le (by omega : A.length ≤ A.length + B.length),
    show A.length + B.length - A.length = B.length by omega,
    List.take_append_eq_append_take, List.take_length,
    Nat.sub_self, List.take_zero, List.append_nil, List.drop_left]

theorem encodeCell_cellX (FIX m h : ℚ) (d e : ℕ) (kp : SpeedyKeypoint) :
    cellX (encodeKeypointCell FIX m h d e kp) 0 = encodeFix FIX kp.x := by
  have h1 : (encodeKeypointCell FIX m h d e kp).getD 1 0 = encodeFix FIX kp.x / 256 := rfl
  have h0 : (encodeKeypointCell FIX m h d e kp).getD 0 0 = encodeFix FIX kp.x % 256 := rfl
  simp only [cellX, h1, h0]
  omega

theorem encodeCell_cellY (FIX m h : ℚ) (d e : ℕ) (kp : SpeedyKeypoint) :
    cellY (encodeKeypointCell FIX m h d e kp) 0 = encodeFix FIX kp.y := by
  have h3 : (encodeKeypointCell FIX m h d e kp).getD (0+3) 0 = encodeFix FIX kp.y / 256 := rfl
  have h2 : (encodeKeypointCell FIX m h d e kp).getD (0+2) 0 = encodeFix FIX kp.y % 256 := rfl
  simp only [cellY, h3, h2]
  omega

theorem encodeCell_byte6 (FIX m h : ℚ) (d e : ℕ) (kp : SpeedyKeypoint) :
    (encodeKeypointCell FIX m h d e kp).getD 6 0 = kp.score % 256 := rfl

theorem encodeCell_extra (FIX m h : ℚ) (d e : ℕ) (kp : SpeedyKeypoint)
    (he : kp.extra.length = e) :
    cellExtra e (encodeKeypointCell FIX m h d e kp) 0 = kp.extra := by
  have hH : ([encodeFix FIX kp.x % 256, encodeFix FIX kp.x / 256,
      encodeFix FIX kp.y % 256, encodeFix FIX kp.y / 256,
      encodeLodByte m h kp.lod, encodeRotationByte kp.rotation,
      kp.score % 256, kp.score / 256] : List ℕ).length = 8 := rfl
  have := subarray_middle
    [encodeFix FIX kp.x % 256, encodeFix FIX kp.x / 256,
     encodeFix FIX kp.y % 256, encodeFix FIX kp.y / 256,
     encodeLodByte m h kp.lod, encodeRotationByte kp.rotation,
     kp.score % 256, kp.score / 256]
    kp.extra
    (kp.descriptor ++ List.replicate (4 * pixelsPerKeypoint d e - (8 + e + d)) 0)
  rw [hH, he] at this
  simpa [cellExtra, encodeKeypointCell, show 8 + 0 = 8 by rfl,
    show 8 + 0 + e = 8 + e by omega] using this

theorem encodeCell_descriptor (FIX m h : ℚ) (d e : ℕ) (kp : SpeedyKeypoint)
    (hd : kp.descriptor.length = d) (he : kp.extra.length = e) :
    cellDescriptor d e (encodeKeypointCell FIX m h d e kp) 0 = kp.descriptor := by
  have hcell : encodeKeypointCell FIX m h d e kp =
      ([encodeFix FIX kp.x % 256, encodeFix FIX kp.x / 256,
        encodeFix FIX kp.y % 256, encodeFix FIX kp.y / 256,
        encodeLodByte m h kp.lod, encodeRotationByte kp.rotation,
        kp.score % 256, kp.score / 256] ++ kp.extra) ++
      (kp.descriptor ++ List.replicate (4 * pixelsPerKeypoint d e - (8 + e + d)) 0) := by
    simp [encodeKeypointCell, List.append_assoc]
  have hHE : (([encodeFix FIX kp.x % 256, encodeFix FIX kp.x / 256,
      encodeFix FIX kp.y % 256, encodeFix FIX kp.y / 256,
      encodeLodByte m h kp.lod, encodeRotationByte kp.rotation,
      kp.score % 256, kp.score / 256] ++ kp.extra) : List ℕ).length = 8 + e := by
    simp [he]
    omega
  have := subarray_middle
    ([encodeFix FIX kp.x % 256, encodeFix FIX kp.x / 256,
      encodeFix FIX kp.y % 256, encodeFix FIX kp.y / 256,
      encodeLodByte m h kp.lod, encodeRotationByte kp.rotation,
      kp.score % 256, kp.score / 256] ++ kp.extra)
    kp.descriptor
    (List.replicate (4 * pixelsPerKeypoint d e - (8 + e + d)) 0)
  rw [hHE, hd] at this
  rw [cellDescriptor, hcell, show 8 + 0 + e = 8 + e by omega,
    show 8 + 0 + e + d = 8 + e + d by omega]
  exact this

theorem encodeCell_keypoint (FIX m h : ℚ) (d e : ℕ) (kp : SpeedyKeypoint)
    (hwf : KpInRange FIX m h d e kp) :
    cellKeypoint FIX m h d e (encodeKeypointCell FIX m h d e kp) 0 =
      quantizeKeypoint FIX m h kp := by
  obtain ⟨hx0, hy0, hxlt, hylt, hlod, hscore, hpat, hd, he⟩ := hwf
  have hlen := encodeKeypointCell_length FIX m h d e kp hd he
  have hppk := pixelsPerKeypoint_ge_two d e
  have h4 : (encodeKeypointCell FIX m h d e kp).getD (0+4) 0 = encodeLodByte m h kp.lod := rfl
  have h5 : (encodeKeypointCell FIX m h d e kp).getD (0+5) 0 = encodeRotationByte kp.rotation := rfl
  have h6 : (encodeKeypointCell FIX m h d e kp).getD (0+6) 0 = kp.score % 256 := rfl
  have h7 : (encodeKeypointCell FIX m h d e kp).getD (0+7) 0 = kp.score / 256 := rfl
  have hlod4 : (0:ℕ) + 4 < (encodeKeypointCell FIX m h d e kp).length := by omega
  simp only [cellKeypoint, quantizeKeypoint, SpeedyKeypoint.mk.injEq]
  refine ⟨?_, ?_, ?_, ?_, ?_, ?_, ?_⟩
  · rw [encodeCell_cellX]
  · rw [encodeCell_cellY]
  · rw [cellLod, if_pos ⟨hlod4, by rw [h4]; exact hlod⟩, h4]
  · rw [cellRotation, h5]
  · rw [cellScore, h7, h6]; omega
  · exact encodeCell_descriptor FIX m h d e kp hd he
  · exact encodeCell_extra FIX m h d e kp he

theorem encodeFix_error (FIX : ℚ) (hFIX : 0 < FIX) (q : ℚ) (hq : 0 ≤ q) :
    |q - (encodeFix FIX q : ℚ) / FIX| ≤ 1 / FIX := by
  have hfl : (0:ℤ) ≤ ⌊q * FIX⌋ := Int.floor_nonneg.mpr (mul_nonneg hq hFIX.le)
  have hcast : ((encodeFix FIX q : ℕ) : ℚ) = ((⌊q * FIX⌋ : ℤ) : ℚ) := by
    rw [encodeFix]
    exact_mod_cast congrArg (fun z : ℤ => (z : ℚ)) (Int.toNat_of_nonneg hfl)
  rw [hcast]
  have hle : ((⌊q * FIX⌋ : ℤ) : ℚ) ≤ q * FIX := Int.floor_le (q * FIX)
  have hlt : q * FIX < (⌊q * FIX⌋ : ℚ) + 1 := Int.lt_floor_add_one (q * FIX)
  rw [abs_sub_le_iff]
  constructor
  · rw [sub_le_iff_le_add, div_add_div_same, le_div_iff₀ hFIX]
    linarith
  · have hv : ((⌊q * FIX⌋ : ℤ) : ℚ) / FIX ≤ q := by
      rw [div_le_iff₀ hFIX]; exact hle
    have hpos : 0 ≤ 1 / FIX := by positivity
    linarith

/-- C1 (amended): the keypoint codec round-trip.  For every list of keypoints
that fits the encoder capacity (`length · pixelsPerKeypoint ≤ encoderLength²`)
and whose members are representable (`KpInRange`: raw coordinates below the
sentinel `0xFFFF`, lod byte below 255, 16-bit score, payload sizes matching,
and not the zero-position/zero-score-low-byte empty pattern), packing the list
into cells — with the extra bytes before the descriptor bytes, as the decoder
defines the layout — and decoding yields exactly the per-field byte-quantized
keypoints, in order; positions are off by at most `1/FIX_RESOLUTION`. -/
theorem keypoint_roundtrip (FIX m h : ℚ) (d e el : ℕ) (kps : List SpeedyKeypoint)
    (hFIX : 0 < FIX)
    (hwf : ∀ kp ∈ kps, KpInRange FIX m h d e kp)
    (hcap : kps.length * pixelsPerKeypoint d e ≤ el * el) :
    decode FIX m h (encodeKeypoints FIX m h d e kps) d e el =
      kps.map (quantizeKeypoint FIX m h) ∧
    ∀ kp ∈ kps,
      |kp.x - (quantizeKeypoint FIX m h kp).x| ≤ 1 / FIX ∧
      |kp.y - (quantizeKeypoint FIX m h kp).y| ≤ 1 / FIX := by
  have hppk := pixelsPerKeypoint_ge_two d e
  have main : ∀ kps : List SpeedyKeypoint,
      (∀ kp ∈ kps, KpInRange FIX m h d e kp) →
      kps.length * pixelsPerKeypoint d e ≤ el * el →
      decode FIX m h (encodeKeypoints FIX m h d e kps) d e el =
        kps.map (quantizeKeypoint FIX m h) := by
    intro kps
    induction kps with
    | nil =>
      intro _ _
      rw [show encodeKeypoints FIX m h d e [] = [] by simp [encodeKeypoints]]
      rw [decode_eq]
      rw [decodeGo_succ]
      simp
    | cons kp kps' ih =>
      intro hwf' hcap'
      have hkpwf := hwf' kp (List.mem_cons_self kp kps')
      have hrestwf : ∀ k ∈ kps', KpInRange FIX m h d e k :=
        fun k hk => hwf' k (List.mem_cons_of_mem kp hk)
      have hrestcap : kps'.length * pixelsPerKeypoint d e ≤ el * el := by
        have : kps'.length * pixelsPerKeypoint d e ≤
            (kp :: kps').length * pixelsPerKeypoint d e := by
          simp only [List.length_cons]
          exact Nat.mul_le_mul_right _ (by omega)
        omega
      obtain ⟨hx0, hy0, hxlt, hylt, hlod, hscore, hpat, hd, he⟩ := hkpwf
      have hsplit : encodeKeypoints FIX m h d e (kp :: kps') =
          encodeKeypointCell FIX m h d e kp ++ encodeKeypoints FIX m h d e kps' := by
        simp [encodeKeypoints]
      have hcelllen := encodeKeypointCell_length FIX m h d e kp hd he
      have hrestlen := encodeKeypoints_length FIX m h d e kps'
        (fun k hk => ⟨(hrestwf k hk).2.2.2.2.2.2.2.1, (hrestwf k hk).2.2.2.2.2.2.2.2⟩)
      have hktot : (kp :: kps').length ≤ el * el := by
        have h1 : (kp :: kps').length * 1 ≤ (kp :: kps').length * pixelsPerKeypoint d e :=
          Nat.mul_le_mul_left _ (by omega)
        omega
      have hbytes : (encodeKeypointCell FIX m h d e kp).length +
          (encodeKeypoints FIX m h d e kps').length ≤
          el * el * pixelsPerKeypoint d e * 4 := by
        rw [hcelllen, hrestlen]
        have : (1 + kps'.length) * (4 * pixelsPerKeypoint d e) ≤
            (el * el) * (4 * pixelsPerKeypoint d e) :=
          Nat.mul_le_mul_right _ (by simp at hktot; omega)
        calc 4 * pixelsPerKeypoint d e + kps'.length * (4 * pixelsPerKeypoint d e)
            = (1 + kps'.length) * (4 * pixelsPerKeypoint d e) := by ring
        _ ≤ (el * el) * (4 * pixelsPerKeypoint d e) := this
        _ = el * el * pixelsPerKeypoint d e * 4 := by ring
      rw [hsplit, decode_cons_cell FIX m h d e el _ _ hcelllen hbytes]
      rw [encodeCell_cellX, encodeCell_cellY]
      rw [if_neg (by omega)]
      have hbyte6 := encodeCell_byte6 FIX m h d e kp
      rw [if_neg (by rw [hbyte6]; omega)]
      rw [encodeCell_keypoint FIX m h d e kp
        ⟨hx0, hy0, hxlt, hylt, hlod, hscore, hpat, hd, he⟩]
      rw [ih hrestwf hrestcap]
      simp
  refine ⟨main kps hwf hcap, ?_⟩
  intro kp hkp
  obtain ⟨hx0, hy0, -, -, -, -, -, -, -⟩ := hwf kp hkp
  exact ⟨encodeFix_error FIX hFIX kp.x hx0, encodeFix_error FIX hFIX kp.y hy0⟩

/-- C1 witness: the round trip applied to a concrete two-keypoint list with
`descriptorSize = extraSize = 1`, `encoderLength = 3`, `FIX_RESOLUTION = 16`,
`m = 0`, `h = 9`. -/
theorem keypoint_roundtrip_witness :
    decode 16 0 9 (encodeKeypoints 16 0 9 1 1
        [⟨1, 2, 0, -255, 9, [3], [4]⟩, ⟨0, 0, 0, -255, 257, [5], [6]⟩]) 1 1 3 =
      [quantizeKeypoint 16 0 9 ⟨1, 2, 0, -255, 9, [3], [4]⟩,
       quantizeKeypoint 16 0 9 ⟨0, 0, 0, -255, 257, [5], [6]⟩] ∧
    ∀ kp ∈ [(⟨1, 2, 0, -255, 9, [3], [4]⟩ : SpeedyKeypoint),
            (⟨0, 0, 0, -255, 257, [5], [6]⟩ : SpeedyKeypoint)],
      |kp.x - (quantizeKeypoint 16 0 9 kp).x| ≤ 1 / 16 ∧
      |kp.y - (quantizeKeypoint 16 0 9 kp).y| ≤ 1 / 16 := by
  have h := keypoint_roundtrip 16 0 9 1 1 3
    [⟨1, 2, 0, -255, 9, [3], [4]⟩, ⟨0, 0, 0, -255, 257, [5], [6]⟩]
    (by norm_num)
    (by
      intro kp hkp
      simp only [List.mem_cons, List.not_mem_nil, or_false] at hkp
      rcases hkp with rfl | rfl <;>
        simp [KpInRange, encodeFix, encodeLodByte] <;> norm_num)
    (by decide)
  simpa using h

/-- Modelled from the spec: the packed cell with the byte order exactly as the
spec's table states it — descriptor bytes first, then extra bytes (§4.5,
"descriptor bytes followed by extra bytes, padded with zeros").  Used to show
the claim fails as stated. -/
def specEncodeKeypointCell (FIX m h : ℚ) (d e : ℕ) (kp : SpeedyKeypoint) : List ℕ :=
  [encodeFix FIX kp.x % 256, encodeFix FIX kp.x / 256,
   encodeFix FIX kp.y % 256, encodeFix FIX kp.y / 256,
   encodeLodByte m h kp.lod, encodeRotationByte kp.rotation,
   kp.score % 256, kp.score / 256] ++
  kp.descriptor ++ kp.extra ++
  List.replicate (4 * pixelsPerKeypoint d e - (8 + d + e)) 0

theorem specEncodeKeypointCell_cex_eval :
    specEncodeKeypointCell 16 0 9 1 1 ⟨1, 2, 0, -255, 9, [1], [2]⟩ =
      [16, 0, 32, 0, 0, 0, 9, 0, 1, 2, 0, 0] := by
  have h1 : encodeFix 16 1 = 16 := by simp [encodeFix]
  have h2 : encodeFix 16 2 = 32 := by
    rw [encodeFix, show ((2:ℚ) * 16) = 32 by norm_num]
    simp
  have h3 : encodeLodByte 0 9 0 = 0 := by
    rw [encodeLodByte, show ((0:ℚ) + 0) * 255 / (0 + 9) + 1/2 = 1/2 by norm_num]
    norm_num
  have h4 : encodeRotationByte (-255) = 0 := by
    rw [encodeRotationByte]
    norm_num
  simp only [specEncodeKeypointCell, h1, h2, h3, h4, pixelsPerKeypoint]
  decide

theorem decode_c1cex_eval :
    decode 16 0 9 [16, 0, 32, 0, 0, 0, 9, 0, 1, 2, 0, 0] 1 1 1 =
      [⟨1, 2, 0, -255, 9, [2], [1]⟩] := by
  norm_num [decode, decodeGo, pixelsPerKeypoint, cellKeypoint, cellX, cellY,
    cellLod, cellRotation, cellScore, cellDescriptor, cellExtra, subarray,
    SpeedyKeypoint.mk.injEq]

/-- C1 counterexample: the round trip fails as stated.  Encoding the keypoint
with descriptor `[1]` and extra `[2]` into the cell layout exactly as the
spec's table orders it (descriptor then extra) and decoding with the sink's
decoder returns a keypoint whose descriptor is `[2]` — not the original
descriptor `[1]` that the claim's element-wise equality requires. -/
theorem keypoint_roundtrip_cex :
    (decode 16 0 9 (specEncodeKeypointCell 16 0 9 1 1 ⟨1, 2, 0, -255, 9, [1], [2]⟩) 1 1 1).map
        SpeedyKeypoint.descriptor = [[2]] ∧
    ¬ ((decode 16 0 9 (specEncodeKeypointCell 16 0 9 1 1 ⟨1, 2, 0, -255, 9, [1], [2]⟩) 1 1 1).map
        SpeedyKeypoint.descriptor =
      [(⟨1, 2, 0, -255, 9, [1], [2]⟩ : SpeedyKeypoint).descriptor]) := by
  rw [specEncodeKeypointCell_cex_eval, decode_c1cex_eval]
  constructor
  · rfl
  · intro hcl
    simp at hcl

/-!
The matrix kernel VM (`src/core/math/matrix-math.js`).  Storage is modelled as
`List ℚ`; a JS typed-array write out of bounds is silently dropped, which
`List.set` reproduces, and an out-of-bounds read yields the default `0`.
`for` loops become `loopN step n out`, which applies `step 0`, …, `step (n-1)`
in order to the accumulator.
-/

/-- The relevant fields of the operation header: output shape/stride/length,
per-input shapes and strides, and the `custom` scalar parameters. -/
structure MatrixHeader where
  rows : ℕ
  columns : ℕ
  stride : ℕ
  length : ℕ
  rowsOfInputs : List ℕ
  columnsOfInputs : List ℕ
  strideOfInputs : List ℕ
  lengthOfInputs : List ℕ
  value : ℚ
  scalar : ℚ

/-- Typed-array read, `undefined` as `0`. -/
def lget (l : List ℚ) (i : ℕ) : ℚ := l.getD i 0

/-- Typed-array write; out-of-bounds writes are dropped. -/
def lset (l : List ℚ) (i : ℕ) (v : ℚ) : List ℚ := l.set i v

/-- `for (t = 0; t < n; t++) acc = step t acc` — iterations applied in order. -/
def loopN (step : ℕ → List ℚ → List ℚ) : ℕ → List ℚ → List ℚ
  | 0, out => out
  | n + 1, out => step n (loopN step n out)

/-- JS `TypedArray.fill(v, a, b)`. -/
def fillRange (v : ℚ) (a b : ℕ) (out : List ℚ) : List ℚ :=
  loopN (fun t o => lset o (a + t) v) (b - a) out

/-- JS `TypedArray.set(src, 0)` (copy `src` to the front). -/
def setList (src : List ℚ) (out : List ℚ) : List ℚ :=
  loopN (fun t o => lset o t (lget src t)) src.length out

namespace MatrixMath

/-- `MatrixMath.nop` (matrix-math.js lines 40–43). -/
def nop (_ : MatrixHeader) (output : List ℚ) (_ : List (List ℚ)) : List ℚ :=
  output

/-- `MatrixMath.fill` (lines 51–65): memset fast path when packed, else
column-by-column fill of the logical rows. -/
def fill (header : MatrixHeader) (output : List ℚ) (_ : List (List ℚ)) : List ℚ :=
  if header.rows * header.columns = header.length then
    fillRange header.value 0 header.length output
  else
    loopN (fun j o =>
      fillRange header.value (j * header.stride) (j * header.stride + header.rows) o)
      header.columns output

/-- `MatrixMath.copy` (lines 73–91): memcpy fast path, else element loop. -/
def copy (header : MatrixHeader) (output : List ℚ) (inputs : List (List ℚ)) : List ℚ :=
  let strideI := header.strideOfInputs.getD 0 0
  let input := inputs.getD 0 []
  if header.length = header.lengthOfInputs.getD 0 0 ∧
      header.rows * header.columns = header.length then
    setList input output
  else
    loopN (fun j o =>
      loopN (fun i o' =>
        lset o' (j * header.stride + i) (lget input (j * strideI + i)))
        header.rows o)
      header.columns output

/-- `MatrixMath.transpose` (lines 99–110). -/
def transpose (header : MatrixHeader) (output : List ℚ) (inputs : List (List ℚ)) : List ℚ :=
  let strideT := header.strideOfInputs.getD 0 0
  let input := inputs.getD 0 []
  loopN (fun i o =>
    loopN (fun j o' =>
      lset o' (j * header.stride + i) (lget input (i * strideT + j)))
      header.columns o)
    header.rows output

/-- `MatrixMath.add` (lines 118–132). -/
def add (header : MatrixHeader) (output : List ℚ) (inputs : List (List ℚ)) : List ℚ :=
  let strideA := header.strideOfInputs.getD 0 0
  let strideB := header.strideOfInputs.getD 1 0
  let a := inputs.getD 0 []
  let b := inputs.getD 1 []
  loopN (fun j o =>
    loopN (fun i o' =>
      lset o' (j * header.stride + i) (lget a (j * strideA + i) + lget b (j * strideB + i)))
      header.rows o)
    header.columns output

/-- `MatrixMath.subtract` (lines 140–154). -/
def subtract (header : MatrixHeader) (output : List ℚ) (inputs : List (List ℚ)) : List ℚ :=
  let strideA := header.strideOfInputs.getD 0 0
  let strideB := header.strideOfInputs.getD 1 0
  let a := inputs.getD 0 []
  let b := inputs.getD 1 []
  loopN (fun j o =>
    loopN (fun i o' =>
      lset o' (j * header.stride + i) (lget a (j * strideA + i) - lget b (j * strideB + i)))
      header.rows o)
    header.columns output

/-- The clearing step shared by `multiply` and `multiplyrt`
(lines 169–175 and 229–235). -/
def clearOutput (header : MatrixHeader) (output : List ℚ) : List ℚ :=
  if header.rows * header.columns ≠ header.length then
    loopN (fun c o =>
      fillRange 0 (c * header.stride) (c * header.stride + header.rows) o)
      header.columns output
  else
    fillRange 0 0 header.length output

/-- `MatrixMath.multiply` (lines 162–186): clear, then accumulate
`output[k·stride + i] += a[j·strideA + i] · b[k·strideB + j]`. -/
def multiply (header : MatrixHeader) (output : List ℚ) (inputs : List (List ℚ)) : List ℚ :=
  let columnsA := header.columnsOfInputs.getD 0 0
  let columnsB := header.columnsOfInputs.getD 1 0
  let strideA := header.strideOfInputs.getD 0 0
  let strideB := header.strideOfInputs.getD 1 0
  let a := inputs.getD 0 []
  let b := inputs.getD 1 []
  loopN (fun k o =>
    loopN (fun j o' =>
      loopN (fun i o'' =>
        lset o'' (k * header.stride + i)
          (lget o'' (k * header.stride + i) +
            lget a (j * strideA + i) * lget b (k * strideB + j)))
        header.rows o')
      columnsA o)
    columnsB (clearOutput header output)

/-- `MatrixMath.multiplylt` (lines 195–212): no clearing; each output element
is zeroed then accumulated: `output[k·stride + j] = Σᵢ a[j·strideA + i] ·
b[k·strideB + i]` over `i < rowsB`. -/
def multiplylt (header : MatrixHeader) (output : List ℚ) (inputs : List (List ℚ)) : List ℚ :=
  let columnsA := header.columnsOfInputs.getD 0 0
  let columnsB := header.columnsOfInputs.getD 1 0
  let rowsB := header.rowsOfInputs.getD 1 0
  let strideA := header.strideOfInputs.getD 0 0
  let strideB := header.strideOfInputs.getD 1 0
  let a := inputs.getD 0 []
  let b := inputs.getD 1 []
  loopN (fun k o =>
    loopN (fun j o' =>
      loopN (fun i o'' =>
        lset o'' (k * header.stride + j)
          (lget o'' (k * header.stride + j) +
            lget a (j * strideA + i) * lget b (k * strideB + i)))
        rowsB (lset o' (k * header.stride + j) 0))
      columnsA o)
    columnsB output

/-- `MatrixMath.multiplyrt` (lines 221–246): clear, then accumulate
`output[k·stride + i] += a[j·strideA + i] · b[j·strideB + k]`. -/
def multiplyrt (header : MatrixHeader) (output : List ℚ) (inputs : List (List ℚ)) : List ℚ :=
  let columnsA := header.columnsOfInputs.getD 0 0
  let rowsB := header.rowsOfInputs.getD 1 0
  let strideA := header.strideOfInputs.getD 0 0
  let strideB := header.strideOfInputs.getD 1 0
  let a := inputs.getD 0 []
  let b := inputs.getD 1 []
  loopN (fun j o =>
    loopN (fun k o' =>
      loopN (fun i o'' =>
        lset o'' (k * header.stride + i)
          (lget o'' (k * header.stride + i) +
            lget a (j * strideA + i) * lget b (j * strideB + k)))
        header.rows o')
      rowsB o)
    columnsA (clearOutput header output)

/-- `MatrixMath.scale` (lines 254–266).  Note: the source indexes the input
with `oj = j * stride` — the OUTPUT stride — not with `strideOfInputs[0]`. -/
def scale (header : MatrixHeader) (output : List ℚ) (inputs : List (List ℚ)) : List ℚ :=
  let input := inputs.getD 0 []
  loopN (fun j o =>
    loopN (fun i o' =>
      lset o' (j * header.stride + i) (lget input (j * header.stride + i) * header.scalar))
      header.rows o)
    header.columns output

/-- `MatrixMath.compmult` (lines 274–288). -/
def compmult (header : MatrixHeader) (output : List ℚ) (inputs : List (List ℚ)) : List ℚ :=
  let strideA := header.strideOfInputs.getD 0 0
  let strideB := header.strideOfInputs.getD 1 0
  let a := inputs.getD 0 []
  let b := inputs.getD 1 []
  loopN (fun j o =>
    loopN (fun i o' =>
      lset o' (j * header.stride + i) (lget a (j * strideA + i) * lget b (j * strideB + i)))
      header.rows o)
    header.columns output

end MatrixMath

/-- The operation codes of the VM (`MatrixMath.Opcode`, lines 363–379). -/
inductive MatrixOpcode
  | NOP | FILL | COPY | TRANSPOSE | ADD | SUBTRACT
  | MULTIPLY | SCALE | COMPMULT | MULTIPLYLT | MULTIPLYRT
deriving DecidableEq, Repr

/-- The dispatch table `MatrixMath.Opcode2fun` (lines 385–400). -/
def applyOp : MatrixOpcode → MatrixHeader → List ℚ → List (List ℚ) → List ℚ
  | MatrixOpcode.NOP => MatrixMath.nop
  | MatrixOpcode.FILL => MatrixMath.fill
  | MatrixOpcode.COPY => MatrixMath.copy
  | MatrixOpcode.TRANSPOSE => MatrixMath.transpose
  | MatrixOpcode.ADD => MatrixMath.add
  | MatrixOpcode.SUBTRACT => MatrixMath.subtract
  | MatrixOpcode.MULTIPLY => MatrixMath.multiply
  | MatrixOpcode.SCALE => MatrixMath.scale
  | MatrixOpcode.COMPMULT => MatrixMath.compmult
  | MatrixOpcode.MULTIPLYLT => MatrixMath.multiplylt
  | MatrixOpcode.MULTIPLYRT => MatrixMath.multiplyrt

theorem lget_lset_eq (l : List ℚ) (i : ℕ) (v : ℚ) (h : i < l.length) :
    lget (lset l i v) i = v := by
  rw [lget, lset, List.getD_eq_getElem?_getD, List.getElem?_set_self (by simpa using h)]
  rfl

theorem lget_lset_ne (l : List ℚ) (i j : ℕ) (v : ℚ) (h : i ≠ j) :
    lget (lset l i v) j = lget l j := by
  rw [lget, lset, List.getD_eq_getElem?_getD, List.getElem?_set_ne h,
    ← List.getD_eq_getElem?_getD, lget]

theorem length_lset (l : List ℚ) (i : ℕ) (v : ℚ) : (lset l i v).length = l.length :=
  List.length_set l i v

theorem length_loopN (step : ℕ → List ℚ → List ℚ)
    (hlen : ∀ t l, (step t l).length = l.length) :
    ∀ n out, (loopN step n out).length = out.length := by
  intro n
  induction n with
  | zero => intro out; rfl
  | succ n ih => intro out; rw [loopN, hlen, ih]

theorem lget_loopN_skip (step : ℕ → List ℚ → List ℚ) (k : ℕ) :
    ∀ (n : ℕ) (out : List ℚ),
      (∀ t l, t < n → lget (step t l) k = lget l k) →
      lget (loopN step n out) k = lget out k := by
  intro n
  induction n with
  | zero => intro out _; rfl
  | succ n ih =>
    intro out hskip
    rw [loopN, hskip n _ (by omega), ih out (fun t l ht => hskip t l (by omega))]

theorem lget_loopN_write (step : ℕ → List ℚ → List ℚ) (k j₀ : ℕ) (v : ℚ)
    (hlen : ∀ t l, (step t l).length = l.length) :
    ∀ (n : ℕ) (out : List ℚ), j₀ < n →
      (∀ l, l.length = out.length → lget (step j₀ l) k = v) →
      (∀ t l, t < n → t ≠ j₀ → lget (step t l) k = lget l k) →
      lget (loopN step n out) k = v := by
  intro n
  induction n with
  | zero => intro out hj _ _; omega
  | succ n ih =>
    intro out hj hwrite hskip
    rw [loopN]
    by_cases hlast : j₀ = n
    · rw [← hlast]
      exact hwrite _ (length_loopN step hlen j₀ out)
    · rw [hskip n _ (by omega) (fun hc => hlast hc.symm)]
      exact ih out (by omega) hwrite (fun t l ht => hskip t l (by omega))

theorem lget_loopN_add (step : ℕ → List ℚ → List ℚ) (k : ℕ) (terms : ℕ → ℚ)
    (hlen : ∀ t l, (step t l).length = l.length) :
    ∀ (n : ℕ) (out : List ℚ),
      (∀ t l, t < n → l.length = out.length → lget (step t l) k = lget l k + terms t) →
      lget (loopN step n out) k = lget out k + (Finset.range n).sum terms := by
  intro n
  induction n with
  | zero => intro out _; simp [loopN]
  | succ n ih =>
    intro out hstep
    rw [loopN, hstep n _ (by omega) (length_loopN step hlen n out),
      ih out (fun t l ht => hstep t l (by omega)), Finset.sum_range_succ]
    ring

theorem length_fillRange (v : ℚ) (a b : ℕ) (out : List ℚ) :
    (fillRange v a b out).length = out.length :=
  length_loopN _ (fun _ l => length_lset l _ _) _ out

theorem lget_fillRange_out (v : ℚ) (a b k : ℕ) (out : List ℚ) (hk : k < a ∨ b ≤ k) :
    lget (fillRange v a b out) k = lget out k := by
  refine lget_loopN_skip _ k (b - a) out (fun t l ht => ?_)
  exact lget_lset_ne l (a + t) k v (by omega)

theorem lget_fillRange_in (v : ℚ) (a b k : ℕ) (out : List ℚ)
    (hk : a ≤ k ∧ k < b) (hb : k < out.length) :
    lget (fillRange v a b out) k = v := by
  refine lget_loopN_write _ k (k - a) v (fun _ l => length_lset l _ _) (b - a) out
    (by omega) (fun l hl => ?_) (fun t l ht hne => ?_)
  · rw [show a + (k - a) = k by omega]
    exact lget_lset_eq l k v (by omega)
  · exact lget_lset_ne l (a + t) k v (by omega)

theorem length_setList (src out : List ℚ) : (setList src out).length = out.length :=
  length_loopN _ (fun _ l => length_lset l _ _) _ out

theorem lget_setList_out (src out : List ℚ) (k : ℕ) (hk : src.length ≤ k) :
    lget (setList src out) k = lget out k := by
  refine lget_loopN_skip _ k src.length out (fun t l ht => ?_)
  exact lget_lset_ne l t k _ (by omega)

theorem block_index_ne (stride r1 r2 q1 q2 : ℕ) (h1 : r1 < stride) (h2 : r2 < stride)
    (hq : q1 ≠ q2) : q1 * stride + r1 ≠ q2 * stride + r2 := by
  intro hc
  rcases Nat.lt_or_ge q1 q2 with hlt | hge
  · have hm : (q1 + 1) * stride ≤ q2 * stride := Nat.mul_le_mul_right _ (by omega)
    rw [Nat.succ_mul] at hm
    omega
  · have hlt2 : q2 < q1 := by omega
    have hm : (q2 + 1) * stride ≤ q1 * stride := Nat.mul_le_mul_right _ (by omega)
    rw [Nat.succ_mul] at hm
    omega

/-- What `MatrixMath.scale` actually computes on the logical region:
`output[j·stride + i] = input[j·stride + i] · scalar`, the input being indexed
with the OUTPUT stride. -/
theorem scale_lget (header : MatrixHeader) (output : List ℚ) (inputs : List (List ℚ))
    (hrs : header.rows ≤ header.stride)
    (i j : ℕ) (hi : i < header.rows) (hj : j < header.columns)
    (hb : j * header.stride + i < output.length) :
    lget (MatrixMath.scale header output inputs) (j * header.stride + i) =
      lget (inputs.getD 0 []) (j * header.stride + i) * header.scalar := by
  rw [MatrixMath.scale]
  refine lget_loopN_write _ (j * header.stride + i) j
    (lget (inputs.getD 0 []) (j * header.stride + i) * header.scalar)
    (fun t l => length_loopN _ (fun _ l' => length_lset l' _ _) _ l)
    header.columns output hj (fun l hl => ?_) (fun t l ht hne => ?_)
  · refine lget_loopN_write _ (j * header.stride + i) i
      (lget (inputs.getD 0 []) (j * header.stride + i) * header.scalar)
      (fun _ l' => length_lset l' _ _)
      header.rows l hi (fun l' hl' => ?_) (fun t' l' ht' hne' => ?_)
    · exact lget_lset_eq l' _ _ (by omega)
    · exact lget_lset_ne l' _ _ _ (by omega)
  · refine lget_loopN_skip _ _ header.rows l (fun t' l' ht' => ?_)
    exact lget_lset_ne l' _ _ _
      (block_index_ne header.stride t' i t j (by omega) (by omega) hne)

/-- C4 (amended): `SCALE` is stride-correct when the input and the output use
the SAME stride (the implementation indexes the input with the output stride):
then `output[i,j] = input[i,j] · s`, and the logical result is independent of
the shared stride — any stride `≥ rows` agrees with any other, in particular
with the packed `stride = rows` layout — whenever the logical inputs agree. -/
theorem scale_stride_correct
    (rows cols s1 s2 : ℕ) (scalar : ℚ) (in1 in2 out1 out2 : List ℚ)
    (hs1 : rows ≤ s1) (hs2 : rows ≤ s2)
    (hagree : ∀ i j, i < rows → j < cols → lget in1 (j * s1 + i) = lget in2 (j * s2 + i))
    (i j : ℕ) (hi : i < rows) (hj : j < cols)
    (hb1 : j * s1 + i < out1.length) (hb2 : j * s2 + i < out2.length) :
    lget (MatrixMath.scale ⟨rows, cols, s1, out1.length, [rows], [cols], [s1],
        [in1.length], 0, scalar⟩ out1 [in1]) (j * s1 + i) =
      lget in1 (j * s1 + i) * scalar ∧
    lget (MatrixMath.scale ⟨rows, cols, s1, out1.length, [rows], [cols], [s1],
        [in1.length], 0, scalar⟩ out1 [in1]) (j * s1 + i) =
      lget (MatrixMath.scale ⟨rows, cols, s2, out2.length, [rows], [cols], [s2],
        [in2.length], 0, scalar⟩ out2 [in2]) (j * s2 + i) := by
  have e1 := scale_lget ⟨rows, cols, s1, out1.length, [rows], [cols], [s1],
    [in1.length], 0, scalar⟩ out1 [in1] hs1 i j hi hj hb1
  have e2 := scale_lget ⟨rows, cols, s2, out2.length, [rows], [cols], [s2],
    [in2.length], 0, scalar⟩ out2 [in2] hs2 i j hi hj hb2
  simp only [List.getD_cons_zero] at e1 e2
  refine ⟨e1, ?_⟩
  rw [e1, e2, hagree i j hi hj]

/-- C4 counterexample: with an input of stride 1 and an output of stride 2
(rows = 1, columns = 2, scalar = 1), the claim's formula
`output[i,j] = s · input[i,j]` fails: the code reads the input with the
output's stride, producing `30` at logical position (0, 1) where the claim
requires `20`. -/
theorem scale_stride_cex :
    ¬ (∀ i, i < (⟨1, 2, 2, 4, [1], [2], [1], [3], 0, 1⟩ : MatrixHeader).rows →
       ∀ j, j < (⟨1, 2, 2, 4, [1], [2], [1], [3], 0, 1⟩ : MatrixHeader).columns →
        lget (MatrixMath.scale ⟨1, 2, 2, 4, [1], [2], [1], [3], 0, 1⟩
            [0, 0, 0, 0] [[10, 20, 30]])
          (j * (⟨1, 2, 2, 4, [1], [2], [1], [3], 0, 1⟩ : MatrixHeader).stride + i) =
        (⟨1, 2, 2, 4, [1], [2], [1], [3], 0, 1⟩ : MatrixHeader).scalar *
          lget [10, 20, 30]
            (j * ((⟨1, 2, 2, 4, [1], [2], [1], [3], 0, 1⟩ : MatrixHeader).strideOfInputs.getD 0 0) + i)) := by
  intro hcl
  have h01 := hcl 0 (by norm_num) 1 (by norm_num)
  norm_num [MatrixMath.scale, loopN, lset, lget] at h01

/-- C4 witness: rows = 1, columns = 2; a stride-2 input/output pair against the
packed stride-1 pair, logically equal inputs `[10, 20]`, scalar 5, at logical
position (0, 1). -/
theorem scale_stride_correct_witness :
    lget (MatrixMath.scale ⟨1, 2, 2, 4, [1], [2], [2], [4], 0, 5⟩
        [0, 0, 0, 0] [[10, 0, 20, 0]]) (1 * 2 + 0) =
      lget [10, 0, 20, 0] (1 * 2 + 0) * 5 ∧
    lget (MatrixMath.scale ⟨1, 2, 2, 4, [1], [2], [2], [4], 0, 5⟩
        [0, 0, 0, 0] [[10, 0, 20, 0]]) (1 * 2 + 0) =
      lget (MatrixMath.scale ⟨1, 2, 1, 2, [1], [2], [1], [2], 0, 5⟩
        [0, 0] [[10, 20]]) (1 * 1 + 0) := by
  have h := scale_stride_correct 1 2 2 1 5 [10, 0, 20, 0] [10, 20] [0, 0, 0, 0] [0, 0]
    (by norm_num) (by norm_num)
    (by
      intro i j hi hj
      interval_cases i <;> interval_cases j <;> norm_num [lget])
    0 1 (by norm_num) (by norm_num) (by norm_num) (by norm_num)
  simpa using h

theorem logical_lt_length (rows cols stride len q i : ℕ) (hq : q < cols) (hi : i < rows)
    (hwfl : cols = 0 ∨ stride * (cols - 1) + rows ≤ len) : q * stride + i < len := by
  rcases hwfl with h0 | hle
  · omega
  · have hmul : q * stride ≤ (cols - 1) * stride := Nat.mul_le_mul_right _ (by omega)
    have hcomm : (cols - 1) * stride = stride * (cols - 1) := Nat.mul_comm _ _
    omega

/-- What `MatrixMath.transpose` computes:
`output[j·stride + i] = input[i·strideT + j]`. -/
theorem transpose_lget (header : MatrixHeader) (output : List ℚ) (inputs : List (List ℚ))
    (hrs : header.rows ≤ header.stride)
    (i j : ℕ) (hi : i < header.rows) (hj : j < header.columns)
    (hb : j * header.stride + i < output.length) :
    lget (MatrixMath.transpose header output inputs) (j * header.stride + i) =
      lget (inputs.getD 0 []) (i * (header.strideOfInputs.getD 0 0) + j) := by
  rw [MatrixMath.transpose]
  refine lget_loopN_write _ (j * header.stride + i) i
    (lget (inputs.getD 0 []) (i * (header.strideOfInputs.getD 0 0) + j))
    (fun t l => length_loopN _ (fun _ l' => length_lset l' _ _) _ l)
    header.rows output hi (fun l hl => ?_) (fun t l ht hne => ?_)
  · refine lget_loopN_write _ (j * header.stride + i) j
      (lget (inputs.getD 0 []) (i * (header.strideOfInputs.getD 0 0) + j))
      (fun _ l' => length_lset l' _ _)
      header.columns l hj (fun l' hl' => ?_) (fun t' l' ht' hne' => ?_)
    · exact lget_lset_eq l' _ _ (by omega)
    · exact lget_lset_ne l' _ _ _
        (block_index_ne header.stride i i t' j (by omega) (by omega) hne')
  · refine lget_loopN_skip _ _ header.columns l (fun t' l' ht' => ?_)
    refine lget_lset_ne l' _ _ _ ?_
    by_cases hsame : t' = j
    · subst hsame; omega
    · exact block_index_ne header.stride t i t' j (by omega) (by omega) hsame

/-- The clearing step zeroes every logical entry. -/
theorem clearOutput_lget (header : MatrixHeader) (output : List ℚ)
    (hrs : header.rows ≤ header.stride)
    (hlen : header.length = output.length)
    (hwfl : header.columns = 0 ∨
      header.stride * (header.columns - 1) + header.rows ≤ header.length)
    (q i : ℕ) (hq : q < header.columns) (hi : i < header.rows) :
    lget (MatrixMath.clearOutput header output) (q * header.stride + i) = 0 := by
  have htgt : q * header.stride + i < header.length :=
    logical_lt_length header.rows header.columns header.stride header.length q i hq hi hwfl
  rw [MatrixMath.clearOutput]
  by_cases hfast : header.rows * header.columns ≠ header.length
  · rw [if_pos hfast]
    refine lget_loopN_write _ (q * header.stride + i) q 0
      (fun t l => length_fillRange _ _ _ l)
      header.columns output hq (fun l hl => ?_) (fun t l ht hne => ?_)
    · exact lget_fillRange_in 0 _ _ _ l ⟨by omega, by omega⟩ (by omega)
    · refine lget_fillRange_out 0 _ _ _ l ?_
      by_contra hcon
      push_neg at hcon
      exact block_index_ne header.stride (q * header.stride + i - t * header.stride) i t q
        (by omega) (by omega) hne (by omega)
  · rw [if_neg hfast]
    exact lget_fillRange_in 0 _ _ _ output ⟨by omega, by omega⟩ (by omega)

/-- What `MatrixMath.multiply` computes on the logical region:
`output[k·stride + i] = Σ_{j < columnsA} a[j·strideA + i] · b[k·strideB + j]`. -/
theorem multiply_lget (header : MatrixHeader) (output : List ℚ) (inputs : List (List ℚ))
    (hrs : header.rows ≤ header.stride)
    (hcols : header.columnsOfInputs.getD 1 0 = header.columns)
    (hlen : header.length = output.length)
    (hwfl : header.columns = 0 ∨
      header.stride * (header.columns - 1) + header.rows ≤ header.length)
    (i k : ℕ) (hi : i < header.rows) (hk : k < header.columnsOfInputs.getD 1 0) :
    lget (MatrixMath.multiply header output inputs) (k * header.stride + i) =
      (Finset.range (header.columnsOfInputs.getD 0 0)).sum
        (fun j => lget (inputs.getD 0 []) (j * (header.strideOfInputs.getD 0 0) + i) *
                  lget (inputs.getD 1 []) (k * (header.strideOfInputs.getD 1 0) + j)) := by
  have htgt : k * header.stride + i < output.length := by
    have := logical_lt_length header.rows header.columns header.stride header.length
      k i (by omega) hi hwfl
    omega
  have hclearlen : (MatrixMath.clearOutput header output).length = output.length := by
    rw [MatrixMath.clearOutput]
    by_cases hfast : header.rows * header.columns ≠ header.length
    · rw [if_pos hfast]
      exact length_loopN _ (fun t l => length_fillRange _ _ _ l) _ output
    · rw [if_neg hfast]
      exact length_fillRange _ _ _ output
  have hclear : lget (MatrixMath.clearOutput header output) (k * header.stride + i) = 0 :=
    clearOutput_lget header output hrs hlen hwfl k i (by omega) hi
  rw [MatrixMath.multiply]
  have houter := lget_loopN_add
    (fun k' o =>
      loopN (fun j o' =>
        loopN (fun i' o'' =>
          lset o'' (k' * header.stride + i')
            (lget o'' (k' * header.stride + i') +
              lget (inputs.getD 0 []) (j * (header.strideOfInputs.getD 0 0) + i') *
                lget (inputs.getD 1 []) (k' * (header.strideOfInputs.getD 1 0) + j)))
          header.rows o')
        (header.columnsOfInputs.getD 0 0) o)
    (k * header.stride + i)
    (fun k' => if k' = k then
      (Finset.range (header.columnsOfInputs.getD 0 0)).sum
        (fun j => lget (inputs.getD 0 []) (j * (header.strideOfInputs.getD 0 0) + i) *
                  lget (inputs.getD 1 []) (k * (header.strideOfInputs.getD 1 0) + j))
      else 0)
    (fun t l => length_loopN _
      (fun _ l' => length_loopN _ (fun _ l'' => length_lset l'' _ _) _ l') _ l)
    (header.columnsOfInputs.getD 1 0)
    (MatrixMath.clearOutput header output)
    ?_
  · rw [houter, hclear, Finset.sum_ite_eq' (Finset.range (header.columnsOfInputs.getD 1 0)),
      if_pos (Finset.mem_range.mpr hk)]
    ring
  · intro k' l hk' hllen
    dsimp only
    by_cases hkk : k' = k
    · subst hkk
      rw [if_pos rfl]
      have hmid := lget_loopN_add
        (fun j o' =>
          loopN (fun i' o'' =>
            lset o'' (k' * header.stride + i')
              (lget o'' (k' * header.stride + i') +
                lget (inputs.getD 0 []) (j * (header.strideOfInputs.getD 0 0) + i') *
                  lget (inputs.getD 1 []) (k' * (header.strideOfInputs.getD 1 0) + j)))
            header.rows o')
        (k' * header.stride + i)
        (fun j => lget (inputs.getD 0 []) (j * (header.strideOfInputs.getD 0 0) + i) *
                  lget (inputs.getD 1 []) (k' * (header.strideOfInputs.getD 1 0) + j))
        (fun t l' => length_loopN _ (fun _ l'' => length_lset l'' _ _) _ l')
        (header.columnsOfInputs.getD 0 0) l ?_
      · exact hmid
      · intro j l' hj hl'
        dsimp only
        have hinner := lget_loopN_add
          (fun i' o'' =>
            lset o'' (k' * header.stride + i')
              (lget o'' (k' * header.stride + i') +
                lget (inputs.getD 0 []) (j * (header.strideOfInputs.getD 0 0) + i') *
                  lget (inputs.getD 1 []) (k' * (header.strideOfInputs.getD 1 0) + j)))
          (k' * header.stride + i)
          (fun i' => if i' = i then
            lget (inputs.getD 0 []) (j * (header.strideOfInputs.getD 0 0) + i) *
              lget (inputs.getD 1 []) (k' * (header.strideOfInputs.getD 1 0) + j)
            else 0)
          (fun _ l'' => length_lset l'' _ _)
          header.rows l' ?_
        · rw [hinner, Finset.sum_ite_eq' (Finset.range header.rows),
            if_pos (Finset.mem_range.mpr hi)]
        · intro i' l'' hi' hl''
          dsimp only
          by_cases hii : i' = i
          · subst hii
            rw [if_pos rfl]
            exact lget_lset_eq l'' _ _ (by omega)
          · rw [if_neg hii]
            rw [lget_lset_ne l'' _ _ _ (by omega)]
            ring
    · rw [if_neg hkk]
      have hskip : lget (loopN (fun j o' =>
          loopN (fun i' o'' =>
            lset o'' (k' * header.stride + i')
              (lget o'' (k' * header.stride + i') +
                lget (inputs.getD 0 []) (j * (header.strideOfInputs.getD 0 0) + i') *
                  lget (inputs.getD 1 []) (k' * (header.strideOfInputs.getD 1 0) + j)))
            header.rows o')
          (header.columnsOfInputs.getD 0 0) l) (k * header.stride + i) =
          lget l (k * header.stride + i) := by
        refine lget_loopN_skip _ _ _ l (fun j l' hj => ?_)
        refine lget_loopN_skip _ _ _ l' (fun i' l'' hi' => ?_)
        exact lget_lset_ne l'' _ _ _
          (block_index_ne header.stride i' i k' k (by omega) (by omega) hkk)
      rw [hskip]
      ring

/-- What `MatrixMath.multiplylt` computes on the logical region:
`output[k·stride + j] = Σ_{i < rowsB} a[j·strideA + i] · b[k·strideB + i]`,
each element zeroed then accumulated (no global clearing pass). -/
theorem multiplylt_lget (header : MatrixHeader) (output : List ℚ) (inputs : List (List ℚ))
    (hca : header.columnsOfInputs.getD 0 0 ≤ header.stride)
    (j k : ℕ) (hj : j < header.columnsOfInputs.getD 0 0)
    (hk : k < header.columnsOfInputs.getD 1 0)
    (hb : k * header.stride + j < output.length) :
    lget (MatrixMath.multiplylt header output inputs) (k * header.stride + j) =
      (Finset.range (header.rowsOfInputs.getD 1 0)).sum
        (fun i => lget (inputs.getD 0 []) (j * (header.strideOfInputs.getD 0 0) + i) *
                  lget (inputs.getD 1 []) (k * (header.strideOfInputs.getD 1 0) + i)) := by
  rw [MatrixMath.multiplylt]
  have hlenstep : ∀ (k' : ℕ) (l : List ℚ),
      (loopN (fun j' o' =>
        loopN (fun i' o'' =>
          lset o'' (k' * header.stride + j')
            (lget o'' (k' * header.stride + j') +
              lget (inputs.getD 0 []) (j' * (header.strideOfInputs.getD 0 0) + i') *
                lget (inputs.getD 1 []) (k' * (header.strideOfInputs.getD 1 0) + i')))
          (header.rowsOfInputs.getD 1 0) (lset o' (k' * header.stride + j') 0))
        (header.columnsOfInputs.getD 0 0) l).length = l.length := by
    intro k' l
    refine length_loopN _ (fun t l' => ?_) _ l
    rw [length_loopN _ (fun _ l'' => length_lset l'' _ _) _ (lset l' _ _), length_lset]
  refine lget_loopN_write _ (k * header.stride + j) k
    ((Finset.range (header.rowsOfInputs.getD 1 0)).sum
      (fun i => lget (inputs.getD 0 []) (j * (header.strideOfInputs.getD 0 0) + i) *
                lget (inputs.getD 1 []) (k * (header.strideOfInputs.getD 1 0) + i)))
    (fun t l => hlenstep t l)
    (header.columnsOfInputs.getD 1 0) output hk (fun l hl => ?_) (fun k' l hk' hne => ?_)
  · -- the k-th outer iteration writes the dot product
    dsimp only
    refine lget_loopN_write _ (k * header.stride + j) j
      ((Finset.range (header.rowsOfInputs.getD 1 0)).sum
        (fun i => lget (inputs.getD 0 []) (j * (header.strideOfInputs.getD 0 0) + i) *
                  lget (inputs.getD 1 []) (k * (header.strideOfInputs.getD 1 0) + i)))
      (fun t l' => by
        rw [length_loopN _ (fun _ l'' => length_lset l'' _ _) _ (lset l' _ _), length_lset])
      (header.columnsOfInputs.getD 0 0) l hj (fun l' hl' => ?_) (fun j' l' hj' hne' => ?_)
    · dsimp only
      have hbase : lget (lset l' (k * header.stride + j) 0) (k * header.stride + j) = 0 :=
        lget_lset_eq l' _ _ (by omega)
      have hinner := lget_loopN_add
        (fun i' o'' =>
          lset o'' (k * header.stride + j)
            (lget o'' (k * header.stride + j) +
              lget (inputs.getD 0 []) (j * (header.strideOfInputs.getD 0 0) + i') *
                lget (inputs.getD 1 []) (k * (header.strideOfInputs.getD 1 0) + i')))
        (k * header.stride + j)
        (fun i' => lget (inputs.getD 0 []) (j * (header.strideOfInputs.getD 0 0) + i') *
                   lget (inputs.getD 1 []) (k * (header.strideOfInputs.getD 1 0) + i'))
        (fun _ l'' => length_lset l'' _ _)
        (header.rowsOfInputs.getD 1 0) (lset l' (k * header.stride + j) 0) ?_
      · rw [hinner, hbase, zero_add]
      · intro i' l'' hi' hl''
        dsimp only
        refine lget_lset_eq l'' _ _ ?_
        rw [hl'', length_lset]
        omega
    · dsimp only
      have hne2 : k * header.stride + j' ≠ k * header.stride + j := by omega
      rw [lget_loopN_skip _ _ _ (lset l' (k * header.stride + j') 0)
        (fun i' l'' hi' => lget_lset_ne l'' _ _ _ hne2)]
      exact lget_lset_ne l' _ _ _ hne2
  · -- other outer iterations never touch column block k
    dsimp only
    refine lget_loopN_skip _ _ _ l (fun j' l' hj' => ?_)
    have hne2 : k' * header.stride + j' ≠ k * header.stride + j :=
      block_index_ne header.stride j' j k' k (by omega) (by omega) hne
    rw [lget_loopN_skip _ _ _ (lset l' (k' * header.stride + j') 0)
      (fun i' l'' hi' => lget_lset_ne l'' _ _ _ hne2)]
    exact lget_lset_ne l' _ _ _ hne2

/-- C7: `MULLT(A, B)` agrees with `MUL(TRANSPOSE(A), B)`.  For matrices `A`
(`rowsA × columnsA`, stride `strideA`), `B` (`rowsB × columnsB`, stride
`strideB`) of compatible shapes (`rowsA = rowsB`), any valid strides
(`≥ rows` of the respective operand/result) and storages that cover the
logical regions, every logical entry `(r, k)` of the `MULLT` result equals the
corresponding entry of `MUL` applied to the transpose of `A` (computed into a
zero scratch buffer of stride `strideT`) and `B` — exact equality over `ℚ`. -/
theorem mullt_eq_mul_transpose
    (rowsA columnsA rowsB columnsB : ℕ)
    (strideA strideB strideT strideO1 strideO2 : ℕ)
    (a b T0 out1 out2 : List ℚ)
    (hcompat : rowsA = rowsB)
    (hsA : rowsA ≤ strideA) (hsB : rowsB ≤ strideB)
    (hsT : columnsA ≤ strideT)
    (hsO1 : columnsA ≤ strideO1) (hsO2 : columnsA ≤ strideO2)
    (hT0len : rowsA = 0 ∨ strideT * (rowsA - 1) + columnsA ≤ T0.length)
    (hout1 : columnsB = 0 ∨ strideO1 * (columnsB - 1) + columnsA ≤ out1.length)
    (hout2 : columnsB = 0 ∨ strideO2 * (columnsB - 1) + columnsA ≤ out2.length)
    (r k : ℕ) (hr : r < columnsA) (hk : k < columnsB) :
    lget (MatrixMath.multiplylt
        ⟨columnsA, columnsB, strideO1, out1.length, [rowsA, rowsB], [columnsA, columnsB],
         [strideA, strideB], [a.length, b.length], 0, 0⟩ out1 [a, b])
      (k * strideO1 + r) =
    lget (MatrixMath.multiply
        ⟨columnsA, columnsB, strideO2, out2.length, [columnsA, rowsB], [rowsA, columnsB],
         [strideT, strideB], [T0.length, b.length], 0, 0⟩ out2
        [MatrixMath.transpose
            ⟨columnsA, rowsA, strideT, T0.length, [rowsA], [columnsA], [strideA],
             [a.length], 0, 0⟩ T0 [a], b])
      (k * strideO2 + r) := by
  have hb1 : k * strideO1 + r < out1.length :=
    logical_lt_length columnsA columnsB strideO1 out1.length k r hk hr (by tauto)
  have hlhs := multiplylt_lget
    ⟨columnsA, columnsB, strideO1, out1.length, [rowsA, rowsB], [columnsA, columnsB],
     [strideA, strideB], [a.length, b.length], 0, 0⟩ out1 [a, b]
    (by simpa using hsO1) r k (by simpa using hr) (by simpa using hk) hb1
  have hrhs := multiply_lget
    ⟨columnsA, columnsB, strideO2, out2.length, [columnsA, rowsB], [rowsA, columnsB],
     [strideT, strideB], [T0.length, b.length], 0, 0⟩ out2
    [MatrixMath.transpose
        ⟨columnsA, rowsA, strideT, T0.length, [rowsA], [columnsA], [strideA],
         [a.length], 0, 0⟩ T0 [a], b]
    (by simpa using hsO2) (by simp) rfl (by simpa using hout2)
    r k (by simpa using hr) (by simpa using hk)
  simp only [List.getD_cons_zero, List.getD_cons_succ] at hlhs hrhs
  rw [hlhs, hrhs]
  subst hcompat
  refine Finset.sum_congr rfl (fun jj hjj => ?_)
  rw [Finset.mem_range] at hjj
  have hT := transpose_lget
    ⟨columnsA, rowsA, strideT, T0.length, [rowsA], [columnsA], [strideA],
     [a.length], 0, 0⟩ T0 [a]
    (by simpa using hsT) r jj (by simpa using hr) (by simpa using hjj)
    (logical_lt_length columnsA rowsA strideT T0.length jj r hjj hr (by tauto))
  simp only [List.getD_cons_zero] at hT
  rw [hT]

/-- C7 witness: `A = [1, 2]ᵀ` (2×1), `B = [3, 4]ᵀ` (2×1):
`MULLT(A,B) = AᵀB = [11] = MUL(TRANSPOSE(A), B)`, on packed outputs with
stale initial contents `[7]` and `[9]`. -/
theorem mullt_eq_mul_transpose_witness :
    lget (MatrixMath.multiplylt ⟨1, 1, 1, 1, [2, 2], [1, 1], [2, 2], [2, 2], 0, 0⟩
        [7] [[1, 2], [3, 4]]) 0 =
    lget (MatrixMath.multiply ⟨1, 1, 1, 1, [1, 2], [2, 1], [1, 2], [2, 2], 0, 0⟩
        [9] [MatrixMath.transpose ⟨1, 2, 1, 2, [2], [1], [2], [2], 0, 0⟩ [0, 0] [[1, 2]],
             [3, 4]]) 0 := by
  have h := mullt_eq_mul_transpose 2 1 2 1 2 2 1 1 1 [1, 2] [3, 4] [0, 0] [7] [9] rfl
    (by norm_num) (by norm_num) (by norm_num) (by norm_num) (by norm_num)
    (by norm_num) (by norm_num) (by norm_num) 0 0 (by norm_num) (by norm_num)
  simpa using h

theorem lget_colfill_skip (v : ℚ) (rows stride cols k : ℕ) (out : List ℚ)
    (hnl : ∀ q i, i < rows → k ≠ q * stride + i) :
    lget (loopN (fun c o => fillRange v (c * stride) (c * stride + rows) o) cols out) k =
      lget out k := by
  refine lget_loopN_skip _ _ _ out (fun c l hc => ?_)
  refine lget_fillRange_out v _ _ _ l ?_
  by_contra hcon
  push_neg at hcon
  exact hnl c (k - c * stride) (by omega) (by omega)

theorem padding_ge_of_packed (rows cols stride len k : ℕ)
    (hstride : rows < stride)
    (hwf : cols = 0 ∨ stride * (cols - 1) + rows ≤ len)
    (hpacked : rows * cols = len)
    (hpad : ∃ j, j < cols ∧ j * stride + rows ≤ k ∧ k < j * stride + stride) :
    len ≤ k := by
  obtain ⟨j, hj, h1, h2⟩ := hpad
  rcases hwf with h0 | hle
  · omega
  · obtain ⟨c', rfl⟩ : ∃ c', cols = c' + 1 := ⟨cols - 1, by omega⟩
    simp only [Nat.add_sub_cancel] at hle
    have hmul : (rows + 1) * c' ≤ stride * c' := Nat.mul_le_mul_right _ (by omega)
    rw [Nat.succ_mul] at hmul
    have hpk : rows * c' + rows = len := by rw [← Nat.mul_succ]; exact hpacked
    have hc0 : c' = 0 := by omega
    subst hc0
    have hj0 : j = 0 := by omega
    subst hj0
    omega

theorem lget_clearOutput_padding (header : MatrixHeader) (output : List ℚ) (k : ℕ)
    (hnl : ∀ q i, i < header.rows → k ≠ q * header.stride + i)
    (hge : header.rows * header.columns = header.length → header.length ≤ k) :
    lget (MatrixMath.clearOutput header output) k = lget output k := by
  rw [MatrixMath.clearOutput]
  by_cases hfast : header.rows * header.columns ≠ header.length
  · rw [if_pos hfast]
    exact lget_colfill_skip 0 header.rows header.stride header.columns k output hnl
  · rw [if_neg hfast]
    push_neg at hfast
    exact lget_fillRange_out 0 0 header.length k output (Or.inr (hge hfast))

/-- C8: no operation of the VM writes into the padding.  For every opcode and
every output whose stride exceeds its logical row count (with a header that
covers the storage consistently, and — for `MULTIPLYLT` — whose left operand's
column count matches the output rows as the shape of `AᵀB` requires), the
entries of every column's padding range `[j·stride + rows, j·stride + stride)`
are unchanged by the operation. -/
theorem vm_padding_untouched (op : MatrixOpcode) (header : MatrixHeader)
    (output : List ℚ) (inputs : List (List ℚ))
    (hlen : header.length = output.length)
    (hstride : header.rows < header.stride)
    (hwf : header.columns = 0 ∨
      header.stride * (header.columns - 1) + header.rows ≤ header.length)
    (hinlen : op = MatrixOpcode.COPY →
      (inputs.getD 0 []).length = header.lengthOfInputs.getD 0 0)
    (hlt : op = MatrixOpcode.MULTIPLYLT →
      header.columnsOfInputs.getD 0 0 ≤ header.rows)
    (k : ℕ)
    (hpad : ∃ j, j < header.columns ∧ j * header.stride + header.rows ≤ k ∧
      k < j * header.stride + header.stride) :
    lget (applyOp op header output inputs) k = lget output k := by
  have hnl : ∀ q i, i < header.rows → k ≠ q * header.stride + i := by
    intro q i hi hc
    obtain ⟨j, hj, h1, h2⟩ := hpad
    by_cases hqj : q = j
    · subst hqj; omega
    · exact block_index_ne header.stride i (k - j * header.stride) q j (by omega)
        (by omega) hqj (by omega)
  have hge : header.rows * header.columns = header.length → header.length ≤ k :=
    fun hpacked => by
      have := padding_ge_of_packed header.rows header.columns header.stride header.length k
        hstride hwf hpacked hpad
      omega
  cases op with
  | NOP => rfl
  | FILL =>
    show lget (MatrixMath.fill header output inputs) k = lget output k
    rw [MatrixMath.fill]
    by_cases hfast : header.rows * header.columns = header.length
    · rw [if_pos hfast]
      exact lget_fillRange_out _ 0 header.length k output (Or.inr (hge hfast))
    · rw [if_neg hfast]
      exact lget_colfill_skip _ header.rows header.stride header.columns k output hnl
  | COPY =>
    show lget (MatrixMath.copy header output inputs) k = lget output k
    rw [MatrixMath.copy]
    by_cases hfast : header.length = header.lengthOfInputs.getD 0 0 ∧
        header.rows * header.columns = header.length
    · rw [if_pos hfast]
      refine lget_setList_out _ output k ?_
      rw [hinlen rfl, ← hfast.1]
      exact hge hfast.2
    · rw [if_neg hfast]
      refine lget_loopN_skip _ _ _ output (fun j l hj => ?_)
      refine lget_loopN_skip _ _ _ l (fun i l' hi => ?_)
      exact lget_lset_ne l' _ _ _ (fun hc => hnl j i hi hc.symm)
  | TRANSPOSE =>
    show lget (MatrixMath.transpose header output inputs) k = lget output k
    rw [MatrixMath.transpose]
    refine lget_loopN_skip _ _ _ output (fun i l hi => ?_)
    refine lget_loopN_skip _ _ _ l (fun j l' hj => ?_)
    exact lget_lset_ne l' _ _ _ (fun hc => hnl j i hi hc.symm)
  | ADD =>
    show lget (MatrixMath.add header output inputs) k = lget output k
    rw [MatrixMath.add]
    refine lget_loopN_skip _ _ _ output (fun j l hj => ?_)
    refine lget_loopN_skip _ _ _ l (fun i l' hi => ?_)
    exact lget_lset_ne l' _ _ _ (fun hc => hnl j i hi hc.symm)
  | SUBTRACT =>
    show lget (MatrixMath.subtract header output inputs) k = lget output k
    rw [MatrixMath.subtract]
    refine lget_loopN_skip _ _ _ output (fun j l hj => ?_)
    refine lget_loopN_skip _ _ _ l (fun i l' hi => ?_)
    exact lget_lset_ne l' _ _ _ (fun hc => hnl j i hi hc.symm)
  | MULTIPLY =>
    show lget (MatrixMath.multiply header output inputs) k = lget output k
    rw [MatrixMath.multiply]
    have hloops : ∀ out', lget (loopN (fun k' o =>
        loopN (fun j o' =>
          loopN (fun i' o'' =>
            lset o'' (k' * header.stride + i')
              (lget o'' (k' * header.stride + i') +
                lget (inputs.getD 0 []) (j * (header.strideOfInputs.getD 0 0) + i') *
                  lget (inputs.getD 1 []) (k' * (header.strideOfInputs.getD 1 0) + j)))
            header.rows o')
          (header.columnsOfInputs.getD 0 0) o)
        (header.columnsOfInputs.getD 1 0) out') k = lget out' k := by
      intro out'
      refine lget_loopN_skip _ _ _ out' (fun k' l hk' => ?_)
      refine lget_loopN_skip _ _ _ l (fun j l' hj => ?_)
      refine lget_loopN_skip _ _ _ l' (fun i' l'' hi' => ?_)
      exact lget_lset_ne l'' _ _ _ (fun hc => hnl k' i' hi' hc.symm)
    rw [hloops]
    exact lget_clearOutput_padding header output k hnl hge
  | MULTIPLYRT =>
    show lget (MatrixMath.multiplyrt header output inputs) k = lget output k
    rw [MatrixMath.multiplyrt]
    have hloops : ∀ out', lget (loopN (fun j o =>
        loopN (fun k' o' =>
          loopN (fun i' o'' =>
            lset o'' (k' * header.stride + i')
              (lget o'' (k' * header.stride + i') +
                lget (inputs.getD 0 []) (j * (header.strideOfInputs.getD 0 0) + i') *
                  lget (inputs.getD 1 []) (j * (header.strideOfInputs.getD 1 0) + k')))
            header.rows o')
          (header.rowsOfInputs.getD 1 0) o)
        (header.columnsOfInputs.getD 0 0) out') k = lget out' k := by
      intro out'
      refine lget_loopN_skip _ _ _ out' (fun j l hj => ?_)
      refine lget_loopN_skip _ _ _ l (fun k' l' hk' => ?_)
      refine lget_loopN_skip _ _ _ l' (fun i' l'' hi' => ?_)
      exact lget_lset_ne l'' _ _ _ (fun hc => hnl k' i' hi' hc.symm)
    rw [hloops]
    exact lget_clearOutput_padding header output k hnl hge
  | MULTIPLYLT =>
    show lget (MatrixMath.multiplylt header output inputs) k = lget output k
    rw [MatrixMath.multiplylt]
    refine lget_loopN_skip _ _ _ output (fun k' l hk' => ?_)
    refine lget_loopN_skip _ _ _ l (fun j l' hj => ?_)
    have hjrows : j < header.rows := by
      have := hlt rfl
      omega
    have hini : lget (lset l' (k' * header.stride + j) 0) k = lget l' k :=
      lget_lset_ne l' _ _ _ (fun hc => hnl k' j hjrows hc.symm)
    rw [lget_loopN_skip _ _ _ (lset l' (k' * header.stride + j) 0)
      (fun i' l'' hi' => lget_lset_ne l'' _ _ _ (fun hc => hnl k' j hjrows hc.symm))]
    exact hini
  | SCALE =>
    show lget (MatrixMath.scale header output inputs) k = lget output k
    rw [MatrixMath.scale]
    refine lget_loopN_skip _ _ _ output (fun j l hj => ?_)
    refine lget_loopN_skip _ _ _ l (fun i l' hi => ?_)
    exact lget_lset_ne l' _ _ _ (fun hc => hnl j i hi hc.symm)
  | COMPMULT =>
    show lget (MatrixMath.compmult header output inputs) k = lget output k
    rw [MatrixMath.compmult]
    refine lget_loopN_skip _ _ _ output (fun j l hj => ?_)
    refine lget_loopN_skip _ _ _ l (fun i l' hi => ?_)
    exact lget_lset_ne l' _ _ _ (fun hc => hnl j i hi hc.symm)

/-- C8 witness: `MULTIPLY` on 2×2 matrices stored with stride 4 (spec scenario
S5): the padding entry at storage index 2 (column 0, rows 2..3) keeps its
stale value `9`. -/
theorem vm_padding_untouched_witness :
    lget (applyOp MatrixOpcode.MULTIPLY ⟨2, 2, 4, 8, [2, 2], [2, 2], [4, 4], [8, 8], 0, 0⟩
        [9, 9, 9, 9, 9, 9, 9, 9] [[1, 3, 0, 0, 2, 4, 0, 0], [5, 7, 0, 0, 6, 8, 0, 0]]) 2 =
      lget [9, 9, 9, 9, 9, 9, 9, 9] 2 :=
  vm_padding_untouched MatrixOpcode.MULTIPLY
    ⟨2, 2, 4, 8, [2, 2], [2, 2], [4, 4], [8, 8], 0, 0⟩
    [9, 9, 9, 9, 9, 9, 9, 9] [[1, 3, 0, 0, 2, 4, 0, 0], [5, 7, 0, 0, 6, 8, 0, 0]]
    (by norm_num) (by norm_num) (by norm_num)
    (by intro hc; exact absurd hc (by decide))
    (by intro hc; exact absurd hc (by decide))
    2 ⟨0, by norm_num, by norm_num, by norm_num⟩

/-!
The encoder kernel (`src/gpu/shaders/encoders/encode-keypoints.glsl`).
Texture texels are RGBA quadruples of rationals in `[0, 1]`; `texelFetch`
becomes application of the texture function to an integer position.  The
helper functions included from `keypoints.glsl` (`findKeypointAddress`,
`findKeypointIndex`, `encodeNullKeypoint`, `encodeKeypointPosition`,
`encodeKeypointFlags`) are not among the sources at hand, so `main` is
parameterized over them; the theorems below hold for every choice.
-/

/-- A GLSL RGBA texel. -/
structure GlPixel where
  r : ℚ
  g : ℚ
  b : ℚ
  a : ℚ
deriving DecidableEq, Repr

/-- `KeypointAddress` of `keypoints.glsl` (not under the sources at hand):
a base pixel index and an offset within the cell. -/
structure KeypointAddress where
  base : ℤ
  offset : ℤ
deriving DecidableEq, Repr

/-- The loop of `findQthKeypoint` (encode-keypoints.glsl lines 46–59), with
structural fuel.  State: the running raster index `i` (the GLSL recomputes
`position = (i % w, i / w)` from it), the keypoint count `p` (starting at
`-1`), and the last fetched `pixel`.  `int(pixel.b * 255.0f)` is
`(⌊b·255⌋).toNat` — texture components are nonnegative, where GLSL's
truncation-toward-zero coincides with this. -/
def findQthKeypointGo (w hgt : ℕ) (img : ℕ × ℕ → GlPixel) (q : ℤ) :
    ℕ → ℤ → GlPixel → ℕ → Bool × (ℕ × ℕ) × GlPixel
  | i, p, pix, 0 => (decide (p = q), (i % w, i / w), pix)
  | i, p, pix, fuel + 1 =>
    if i / w < hgt ∧ p ≠ q then
      let pixel := img (i % w, i / w)
      let p' := p + (if pixel.r > 0 then 1 else 0)
      let i' := i + 1 + (⌊pixel.b * 255⌋).toNat
      findQthKeypointGo w hgt img q i' p' pixel fuel
    else (decide (p = q), (i % w, i / w), pix)

/-- `findQthKeypoint(q, out position, out pixel)` (lines 46–59): returns
(found?, position, pixel).  `w * hgt + 1` fuel dominates the loop count since
`i` strictly increases and the loop requires `i / w < hgt`. -/
def findQthKeypoint (w hgt : ℕ) (img : ℕ × ℕ → GlPixel) (q : ℤ) :
    Bool × (ℕ × ℕ) × GlPixel :=
  findQthKeypointGo w hgt img q 0 (-1) ⟨0, 0, 0, 0⟩ (w * hgt + 1)

/-- `main()` of encode-keypoints.glsl (lines 61–96), parameterized over the
missing `keypoints.glsl` helpers.  The output is the `color` assigned for the
fragment at `thread`. -/
def encodeKeypointsMain
    (findKeypointAddress : ℕ × ℕ → ℕ → ℕ → ℕ → KeypointAddress)
    (findKeypointIndex : KeypointAddress → ℕ → ℕ → ℤ)
    (encodeNullKeypoint : GlPixel)
    (encodeKeypointPosition : ℕ × ℕ → GlPixel)
    (encodeKeypointFlagsNone : ℚ)
    (image encodedKeypoints : ℕ × ℕ → GlPixel)
    (imageW imageH tileSize tileIndex descriptorSize extraSize encoderLength : ℕ)
    (thread : ℕ × ℕ) : GlPixel :=
  let address := findKeypointAddress thread encoderLength descriptorSize extraSize
  let q := findKeypointIndex address descriptorSize extraSize
  let tilePos := (thread.1 / tileSize, thread.2 / tileSize)
  let tileStride := encoderLength / tileSize
  let tile := tilePos.2 * tileStride + tilePos.1
  if tile ≠ tileIndex then encodedKeypoints thread
  else if address.offset > 1 then ⟨0, 0, 0, 0⟩
  else
    let result := findQthKeypoint imageW imageH image q
    if ¬ result.1 then encodeNullKeypoint
    else if address.offset = 1 then
      ⟨result.2.2.a, 0, result.2.2.r, encodeKeypointFlagsNone⟩
    else encodeKeypointPosition result.2.1

/-- C2: the encoder does NOT write the q-th keypoint's position.  On the 2×2
image whose only positive-score pixel is at (0, 0) (score 1, all skip offsets
0 — trivially valid hints), with `q = 0`, `findQthKeypoint` reports success
but returns position (1, 0): the walk advances past the keypoint before the
loop exits, so `main` encodes (1, 0) into pixel 0 of the cell — yet the pixel
at (1, 0) has score 0 and is not a keypoint at all.  The q-th keypoint sits at
(0, 0). -/
theorem findQthKeypoint_off_by_one :
    findQthKeypoint 2 2
        (fun pos => if pos = (0, 0) then ⟨1, 0, 0, 0⟩ else ⟨0, 0, 0, 0⟩) 0 =
      (true, (1, 0), ⟨1, 0, 0, 0⟩) ∧
    ((1, 0) : ℕ × ℕ) ≠ (0, 0) ∧
    ((fun pos => if pos = ((0 : ℕ), (0 : ℕ)) then (⟨1, 0, 0, 0⟩ : GlPixel)
        else ⟨0, 0, 0, 0⟩) (1, 0)).r = 0 := by
  refine ⟨?_, by decide, by norm_num⟩
  norm_num [findQthKeypoint, findQthKeypointGo]

/-- C10: tiled encoding preserves other tiles.  For every choice of the
`keypoints.glsl` helpers, every texture pair, every uniform setting and every
thread whose tile index (thread location divided componentwise by `tileSize`,
linearized row-major with stride `encoderLength / tileSize`) differs from the
`tileIndex` uniform, the shader writes back the pixel of the input
`encodedKeypoints` texture at that thread, unchanged. -/
theorem encode_main_preserves_other_tiles
    (findKeypointAddress : ℕ × ℕ → ℕ → ℕ → ℕ → KeypointAddress)
    (findKeypointIndex : KeypointAddress → ℕ → ℕ → ℤ)
    (encodeNullKeypoint : GlPixel)
    (encodeKeypointPosition : ℕ × ℕ → GlPixel)
    (encodeKeypointFlagsNone : ℚ)
    (image encodedKeypoints : ℕ × ℕ → GlPixel)
    (imageW imageH tileSize tileIndex descriptorSize extraSize encoderLength : ℕ)
    (thread : ℕ × ℕ)
    (htile : (thread.2 / tileSize) * (encoderLength / tileSize) +
      thread.1 / tileSize ≠ tileIndex) :
    encodeKeypointsMain findKeypointAddress findKeypointIndex encodeNullKeypoint
        encodeKeypointPosition encodeKeypointFlagsNone image encodedKeypoints
        imageW imageH tileSize tileIndex descriptorSize extraSize encoderLength
        thread =
      encodedKeypoints thread := by
  rw [encodeKeypointsMain]
  exact if_pos htile

/-- C10 witness: `tileSize = 2`, `encoderLength = 4`, `tileIndex = 0`; the
thread at (2, 0) lies in tile 1 and keeps its input pixel `(2, 0, 0, 1)`. -/
theorem encode_main_preserves_other_tiles_witness :
    encodeKeypointsMain (fun _ _ _ _ => ⟨0, 0⟩) (fun _ _ _ => 0) ⟨1, 1, 1, 1⟩
        (fun _ => ⟨0, 0, 0, 0⟩) 0 (fun _ => ⟨0, 0, 0, 0⟩)
        (fun pos => ⟨(pos.1 : ℚ), (pos.2 : ℚ), 0, 1⟩)
        8 8 2 0 0 0 4 (2, 0) =
      ⟨2, 0, 0, 1⟩ := by
  rw [encode_main_preserves_other_tiles (fun _ _ _ _ => ⟨0, 0⟩) (fun _ _ _ => 0)
    ⟨1, 1, 1, 1⟩ (fun _ => ⟨0, 0, 0, 0⟩) 0 (fun _ => ⟨0, 0, 0, 0⟩)
    (fun pos => ⟨(pos.1 : ℚ), (pos.2 : ℚ), 0, 1⟩) 8 8 2 0 0 0 4 (2, 0) (by decide)]
  norm_num
